import Mathlib

/-!
Formal model of a discrete-event packet-scheduling simulator.

The development embeds, as executable Lean definitions, the data model and
operations of the simulator: packets (packet.py), the queue disciplines
FIFOQueue / WRRQueue / NPPSQueue with their synchronous observer
notifications (customqueue.py), and the event set, processor pool and
scheduler loop (scheduler.py).  Simulated times, drawn as Python floats in
the original, are modelled as rationals; `Optional[X]` fields are modelled
as `Option`; operations that can raise in Python return `Option` results
where the raising branch is reachable.  Theorems then settle stated
properties of these components.
-/

namespace Sim

/-- Priority classes of `Packet.Priority` (an `IntEnum`): LOW = 0,
MEDIUM = 1, HIGH = 2. -/
inductive Priority where
  | LOW
  | MEDIUM
  | HIGH
deriving DecidableEq

/-- Numeric value of a priority, as used when a priority is compared or
used as a list index (the Python class is an `IntEnum`). -/
def Priority.toIdx : Priority → ℕ
  | .LOW => 0
  | .MEDIUM => 1
  | .HIGH => 2

/-- Model of `packet.Packet`: `simulation_time`, `enter_time`,
`process_time` and `priority` are set at creation; `processor_index` and
`start_time` start as `None` and are assigned at dispatch; `dropped`
starts `False` and is set on admission failure. -/
structure Packet where
  simulation_time : ℚ
  enter_time : ℚ
  process_time : ℚ
  priority : Priority
  processor_index : Option ℕ
  start_time : Option ℚ
  dropped : Bool
deriving DecidableEq

/-- Python's `a or b` applied to an `Optional[float]` left operand: the
left operand is returned unless it is falsy, and both `None` and the
number `0` are falsy in Python. -/
def pyOrQ (a : Option ℚ) (b : ℚ) : ℚ :=
  match a with
  | none => b
  | some x => if x = 0 then b else x

/-- Model of the property `Packet.waiting_time`:
`(self.start_time or self.simulation_time) - self.enter_time`. -/
def Packet.waiting_time (p : Packet) : ℚ :=
  pyOrQ p.start_time p.simulation_time - p.enter_time

/-- Model of the property `Packet.has_started`:
`self.start_time is not None`. -/
def Packet.has_started (p : Packet) : Bool :=
  p.start_time.isSome

/-- Model of the property `Packet.end_time`, which asserts
`has_started` and then returns `start_time + process_time`; the `none`
result models the assertion failing on a packet that has not started. -/
def Packet.end_time (p : Packet) : Option ℚ :=
  match p.start_time with
  | none => none
  | some s => some (s + p.process_time)

/-- Kind of an observer notification (`QueueObserver.Type`): `ADD_QUEUE`
or `POP_QUEUE`. -/
inductive NKind where
  | ADD
  | POP
deriving DecidableEq

/-- One synchronous observer notification as broadcast by
`BaseQueue.update_observers`: the kind together with the keyword fields
passed (`current_time`, `new_length`, and for ADD the `packet`).  Each
queue operation below returns the list of notifications it emits, in
emission order, with the field values computed exactly at the program
point where the Python code computes them. -/
structure Notification (α : Type) where
  kind : NKind
  current_time : ℚ
  new_length : ℕ
  payload : Option α
deriving DecidableEq

/-- Model of `FIFOQueue`: a bounded deque.  The element type is a
parameter; the scheduler-facing instance stores packet identifiers while
the discipline theorems use `Packet` elements. -/
structure FIFOQueue (α : Type) where
  length_limit : ℕ
  q : List α
deriving DecidableEq

/-- Model of `FIFOQueue.length`: `len(self.q)`. -/
def FIFOQueue.length (s : FIFOQueue α) : ℕ := s.q.length

/-- Model of `FIFOQueue.empty`: `len(self.q) == 0`. -/
def FIFOQueue.empty (s : FIFOQueue α) : Bool := s.q.length == 0

/-- Model of `FIFOQueue.add_packet`: if `len(self.q) >= self.length_limit`
return `False` (no mutation, no notification); otherwise append the
packet and call `super().add_packet`, which notifies observers with
`new_length = self.length()` (computed after the append) and returns
`True`. -/
def FIFOQueue.add_packet (s : FIFOQueue α) (x : α) (t : ℚ) :
    FIFOQueue α × Bool × List (Notification α) :=
  if s.length_limit ≤ s.q.length then (s, false, [])
  else
    let s' : FIFOQueue α := { s with q := s.q ++ [x] }
    (s', true, [⟨NKind.ADD, t, s'.q.length, some x⟩])

/-- Model of `FIFOQueue.pop`: if empty return `None`; otherwise call
`super().pop`, which notifies observers with `new_length = self.length()`
computed BEFORE `self.q.popleft()` runs, and then remove and return the
head. -/
def FIFOQueue.pop (s : FIFOQueue α) (t : ℚ) :
    FIFOQueue α × Option α × List (Notification α) :=
  match s.q with
  | [] => (s, none, [])
  | x :: rest =>
      ({ s with q := rest }, some x, [⟨NKind.POP, t, (x :: rest).length, none⟩])

/-- Model of `NPPSQueue`: a bounded list kept ordered by descending
priority via insertion bubbling. -/
structure NPPSQueue where
  length_limit : ℕ
  q : List Packet
deriving DecidableEq

/-- The bubbling loop of `NPPSQueue.add_packet`, expressed on the
REVERSED queue (head of the argument = tail of the queue): the appended
packet `x` is swapped left past each neighbour of strictly lower
priority and stops at the first neighbour of equal or higher priority
(`while index and self.q[index - 1].priority < self.q[index].priority`). -/
def bubbleRev (x : Packet) : List Packet → List Packet
  | [] => [x]
  | a :: r =>
      if a.priority.toIdx < x.priority.toIdx then a :: bubbleRev x r
      else x :: a :: r

/-- The combined append-and-bubble step of `NPPSQueue.add_packet`,
stated on the queue in its stored order (the bubbling loop runs over the
reversed list, starting from the appended tail element). -/
def nppsInsert (x : Packet) (q : List Packet) : List Packet :=
  (bubbleRev x q.reverse).reverse

/-- Model of `NPPSQueue.add_packet`: reject (with no mutation and no
notification) iff `len(self.q) == self.length_limit`; otherwise append
the packet, bubble it left past strictly lower-priority neighbours, and
call `super().add_packet`, which notifies with the post-insertion length
and returns `True`. -/
def NPPSQueue.add_packet (s : NPPSQueue) (x : Packet) (t : ℚ) :
    NPPSQueue × Bool × List (Notification Packet) :=
  if s.q.length = s.length_limit then (s, false, [])
  else
    let q' := nppsInsert x s.q
    ({ s with q := q' }, true, [⟨NKind.ADD, t, q'.length, some x⟩])

/-- Model of `NPPSQueue.pop`: if empty return `None`; otherwise call
`super().pop`, which notifies with `new_length = self.length()` computed
BEFORE `self.q.pop(0)` runs, then remove and return the head. -/
def NPPSQueue.pop (s : NPPSQueue) (t : ℚ) :
    NPPSQueue × Option Packet × List (Notification Packet) :=
  match s.q with
  | [] => (s, none, [])
  | x :: rest =>
      ({ s with q := rest }, some x, [⟨NKind.POP, t, (x :: rest).length, none⟩])

/-- Model of `WRRQueue`: a list of FIFO children (one per priority class),
integer weights, and the round-robin cursor state `_current_queue_index`
(a Python int, so modelled as `ℤ`) and `_current_queue_popped`. -/
structure WRRQueue where
  queues : List (FIFOQueue Packet)
  weights : List ℕ
  currentQueueIndex : ℤ
  currentQueuePopped : ℕ
deriving DecidableEq

/-- Model of `WRRQueue.__init__`: the cursor starts at
`len(queues) - 1` with a zero popped counter. -/
def WRRQueue.init (queues : List (FIFOQueue Packet)) (weights : List ℕ) :
    WRRQueue :=
  ⟨queues, weights, (queues.length : ℤ) - 1, 0⟩

/-- Model of `WRRQueue.length`: the sum of the children's lengths. -/
def WRRQueue.length (s : WRRQueue) : ℕ :=
  (s.queues.map (fun c => c.q.length)).sum

/-- Model of `WRRQueue.empty`: `all(queue.empty() for queue in self.queues)`. -/
def WRRQueue.empty (s : WRRQueue) : Bool :=
  s.queues.all (fun c => c.empty)

/-- Model of `WRRQueue._next_queue`:
`self._current_queue_index = (self._current_queue_index - 1) % len(self.queues)`
(Python `%` on ints is `Int.emod` for a positive divisor) and the popped
counter is reset to zero. -/
def WRRQueue.nextQueue (s : WRRQueue) : WRRQueue :=
  { s with
    currentQueueIndex := (s.currentQueueIndex - 1).emod (s.queues.length : ℤ)
    currentQueuePopped := 0 }

/-- Model of `WRRQueue.add_packet`: delegate to the child indexed by the
packet's priority (`self.queues[packet.priority]`; an out-of-range index
raises, modelled by `none`).  If the child admits, call
`super().add_packet`, which notifies the composite's observers with
`new_length = self.length()` (the post-admission total) and returns
`True`; if the child rejects, return `False` with nothing mutated and no
notification. -/
def WRRQueue.add_packet (s : WRRQueue) (x : Packet) (t : ℚ) :
    Option (WRRQueue × Bool × List (Notification Packet)) :=
  match s.queues[x.priority.toIdx]? with
  | none => none
  | some child =>
      let r := child.add_packet x t
      if r.2.1 then
        let s' := { s with queues := s.queues.set x.priority.toIdx r.1 }
        some (s', true, r.2.2 ++ [⟨NKind.ADD, t, s'.length, some x⟩])
      else some (s, false, r.2.2)

/-- Model of the `while True` loop inside `WRRQueue.pop`, with explicit
fuel (the loop terminates within `len(self.queues)` iterations whenever
the composite is non-empty, which the caller has checked).  If the child
under the cursor is non-empty it is popped, the popped counter is
incremented, the cursor advances when the counter reaches the child's
weight, and `super().pop` notifies the composite's observers with
`new_length = self.length()` (computed after the child's removal);
otherwise the cursor advances without consuming any quota.  A `none`
result models an index error or loop divergence, both unreachable in the
states the simulator produces. -/
def WRRQueue.popLoop (t : ℚ) : ℕ → WRRQueue →
    Option (Packet × WRRQueue × List (Notification Packet))
  | 0, _ => none
  | fuel + 1, s =>
      match s.queues[s.currentQueueIndex.toNat]? with
      | none => none
      | some child =>
          if child.empty then WRRQueue.popLoop t fuel s.nextQueue
          else
            match child.pop t with
            | (child', some p, ns) =>
                match s.weights[s.currentQueueIndex.toNat]? with
                | none => none
                | some w =>
                    let popped' := s.currentQueuePopped + 1
                    let s1 := { s with
                      queues := s.queues.set s.currentQueueIndex.toNat child'
                      currentQueuePopped := popped' }
                    let s2 := if popped' = w then s1.nextQueue else s1
                    some (p, s2, ns ++ [⟨NKind.POP, t, s2.length, none⟩])
            | (_, none, _) => none

/-- Model of `WRRQueue.pop`: `None` on an empty composite (with no
notification), otherwise run the round-robin loop. -/
def WRRQueue.pop (s : WRRQueue) (t : ℚ) :
    Option (Option Packet × WRRQueue × List (Notification Packet)) :=
  if s.empty then some (none, s, [])
  else
    match WRRQueue.popLoop t s.queues.length s with
    | none => none
    | some (p, s', ns) => some (some p, s', ns)

/-- Model of `scheduler.EventType`. -/
inductive EventType where
  | DONE
  | SPAWN
deriving DecidableEq

/-- Model of `scheduler.Event`: a timestamp, a kind, and the associated
packet, here referenced by its index in the scheduler's packet store
(Python events hold an object reference into the same mutable heap). -/
structure Event where
  time : ℚ
  event_type : EventType
  pid : ℕ
deriving DecidableEq

/-- Minimum extraction for the `EventSet` model.  `EventSet` wraps a
`heapq` binary min-heap keyed on `Event.time`; its only guarantee is that
`pop` returns a remaining event of smallest timestamp (the relative order
of equal timestamps is implementation-defined).  The heap is modelled as
the plain list of pending events; `popMin` removes one minimal-time
event. -/
def popMin : List Event → Option (Event × List Event)
  | [] => none
  | e :: rest =>
      match popMin rest with
      | none => some (e, [])
      | some (m, r) =>
          if e.time ≤ m.time then some (e, rest) else some (m, e :: r)

/-- Model of `scheduler.Processor`: busy flag, the time it became busy
(`_start_time`, `None` while idle), and accumulated busy time
(`account`). -/
structure Processor where
  is_busy : Bool
  start : Option ℚ
  account : ℚ
deriving DecidableEq

/-- Model of `Processor.__init__`. -/
def Processor.initial : Processor := ⟨false, none, 0⟩

/-- Model of `Processor.set_is_busy`. -/
def Processor.set_is_busy (p : Processor) (t : ℚ) : Processor :=
  { p with is_busy := true, start := some t }

/-- Model of `Processor.reset_is_busy`:
`self.account += current_time - self._start_time` raises when
`_start_time` is `None`, modelled by the `none` result. -/
def Processor.reset_is_busy (p : Processor) (t : ℚ) : Option Processor :=
  match p.start with
  | none => none
  | some st => some ⟨false, none, p.account + (t - st)⟩

/-- The scheduler is written against the abstract queue interface
(`AbstractQueue`): `add_packet` (returning the admission flag), `pop`
(returning `None` on an empty queue) and `empty`.  A `QueueModel` packages
a queue state type with these operations (the packet argument is passed
as its identifier plus the only field a discipline reads, the priority),
together with the ghost multiset of stored packet identifiers and the
contract every discipline satisfies: a successful add stores exactly the
given packet, a rejected add stores nothing, a pop on a non-empty queue
returns a stored packet and removes it, and emptiness coincides with the
ghost multiset being empty. -/
structure QueueModel where
  σ : Type
  addPacket : σ → ℕ → Priority → ℚ → σ × Bool
  popQ : σ → ℚ → Option ℕ × σ
  emptyQ : σ → Bool
  contents : σ → Multiset ℕ
  add_true : ∀ s id pr t, (addPacket s id pr t).2 = true →
    contents (addPacket s id pr t).1 = id ::ₘ contents s
  add_false : ∀ s id pr t, (addPacket s id pr t).2 = false →
    contents (addPacket s id pr t).1 = contents s
  pop_some : ∀ s t, emptyQ s = false →
    ∃ id s', popQ s t = (some id, s') ∧ contents s = id ::ₘ contents s'
  empty_iff : ∀ s, emptyQ s = true ↔ contents s = 0

/-- Model of the `Scheduler` object state: the queue, the event set, the
processor pool, the configuration fields stored by `__init__`, the packet
heap (`pkts i` is the packet created `i`-th), and `all_packets` as the
list of created packet identifiers. -/
structure Scheduler (Q : QueueModel) where
  queue : Q.σ
  events : List Event
  procs : List Processor
  host_rate : ℚ
  process_rate : ℚ
  simulation_time : ℚ
  priority_probs : List ℚ
  pkts : ℕ → Packet
  all_packets : List ℕ

/-- Placeholder value of the packet heap at indices where no packet was
created; it carries the fields of a freshly constructed packet. -/
def defaultPacket : Packet := ⟨0, 0, 0, Priority.LOW, none, none, false⟩

/-- Model of `Scheduler.__init__`: every argument is stored as given —
the constructor performs no validation of any kind — with an empty event
set, `processors` fresh processors (`range` of a non-positive count is
empty, hence `Int.toNat`), and an empty `all_packets` list. -/
def schedulerInit (Q : QueueModel) (queue : Q.σ) (x y t : ℚ)
    (processors : ℤ) (priority_probs : List ℚ) : Scheduler Q where
  queue := queue
  events := []
  procs := List.replicate processors.toNat Processor.initial
  host_rate := x
  process_rate := y
  simulation_time := t
  priority_probs := priority_probs
  pkts := fun _ => defaultPacket
  all_packets := []

/-- Model of `Scheduler._create_packets`.  The random draws of the
original (`expovariate` inter-arrival gaps, a categorical priority and an
`expovariate` service time per packet) are supplied as an explicit list
of triples `(interval, priority, process_time)`; the loop accumulates the
running arrival time, stops as soon as it reaches the horizon, and for
each accepted arrival creates the packet and its SPAWN event at the
packet's enter time.  Returns the SPAWN events and the created packets in
creation order; the packet created `i`-th has identifier `nextId + i`. -/
def createPackets (T : ℚ) : ℚ → ℕ → List (ℚ × Priority × ℚ) →
    List Event × List Packet
  | _, _, [] => ([], [])
  | cur, nextId, (iv, pr, pt) :: rest =>
      let cur' := cur + iv
      if cur' < T then
        let p : Packet := ⟨T, cur', pt, pr, none, none, false⟩
        let r := createPackets T cur' (nextId + 1) rest
        (⟨cur', EventType.SPAWN, nextId⟩ :: r.1, p :: r.2)
      else ([], [])

/-- The scheduler state reached inside `run()` immediately after
`self._create_packets()`: the constructed scheduler with the generated
SPAWN events in the event set, the generated packets in the packet heap,
and their identifiers in `all_packets`. -/
def initState (Q : QueueModel) (queue : Q.σ) (x y T : ℚ)
    (processors : ℤ) (priority_probs : List ℚ)
    (draws : List (ℚ × Priority × ℚ)) : Scheduler Q :=
  let base := schedulerInit Q queue x y T processors priority_probs
  let r := createPackets T 0 0 draws
  { base with
    events := r.1
    pkts := fun i => r.2.getD i defaultPacket
    all_packets := List.range r.2.length }

/-- The condition of the inner loop of `Scheduler._draw_events`:
`self.event_set.top().time == event`.  The left operand is a Python
float and the right operand is the `Event` object itself (not
`event.time`).  In Python this comparison is always `False`:
`float.__eq__` returns `NotImplemented` for a non-numeric operand, the
dataclass-generated `Event.__eq__` returns `NotImplemented` for a
non-`Event` operand, and the interpreter then falls back to identity,
which fails for distinct objects. -/
def timeEqPyEvent (_ : ℚ) (_ : Event) : Bool := false

/-- The `while` loop of `Scheduler._draw_events`
(`while not self.event_set.empty() and self.event_set.top().time == event`),
with fuel: each iteration checks the heap top against the anchor event
with `timeEqPyEvent` and pops it when the comparison succeeds.  Returns
the additionally yielded events and the remaining heap. -/
def drawWhile : ℕ → Event → List Event → List Event × List Event
  | 0, _, evs => ([], evs)
  | fuel + 1, e, evs =>
      match popMin evs with
      | none => ([], evs)
      | some (top, rest) =>
          if timeEqPyEvent top.time e then
            let r := drawWhile fuel e rest
            (top :: r.1, r.2)
          else ([], evs)

/-- Model of `Scheduler._draw_events` (driven to exhaustion by the `for`
loop in `run`, which is valid because the generator only mutates the
event set): pop the earliest event; if its time is at or beyond the
horizon, yield nothing (the popped event is discarded); otherwise yield
it followed by the events drawn by the inner `while` loop.  Returns the
yielded batch and the remaining event set. -/
def drawEvents (T : ℚ) (evs : List Event) : List Event × List Event :=
  match popMin evs with
  | none => ([], [])
  | some (e, rest) =>
      if T ≤ e.time then ([], rest)
      else
        let r := drawWhile rest.length e rest
        (e :: r.1, r.2)

/-- Model of `Scheduler._apply_event`.  SPAWN: attempt admission
(passing the packet's identifier and priority, the only field the
disciplines read) and set the packet's `dropped` flag on failure.  DONE:
`self.processors[event.packet.processor_index].reset_is_busy(event.time)`
— indexing with a `None` or out-of-range `processor_index`, or resetting
an idle processor, raises, modelled by `none`. -/
def applyEvent (Q : QueueModel) (e : Event) (s : Scheduler Q) :
    Option (Scheduler Q) :=
  match e.event_type with
  | EventType.SPAWN =>
      let r := Q.addPacket s.queue e.pid (s.pkts e.pid).priority e.time
      if r.2 then some { s with queue := r.1 }
      else
        some { s with
          queue := r.1
          pkts := Function.update s.pkts e.pid
            { s.pkts e.pid with dropped := true } }
  | EventType.DONE =>
      match (s.pkts e.pid).processor_index with
      | none => none
      | some i =>
          match s.procs[i]? with
          | none => none
          | some p =>
              match p.reset_is_busy e.time with
              | none => none
              | some p' => some { s with procs := s.procs.set i p' }

/-- The body of the `for event in self._draw_events()` loop in
`Scheduler.run`: for each yielded event, set `current_time = event.time`
and apply it.  Returns the updated clock and state, or `none` if an
application raised. -/
def applyBatch (Q : QueueModel) : ℚ → Scheduler Q → List Event →
    Option (ℚ × Scheduler Q)
  | t, s, [] => some (t, s)
  | _, s, e :: rest =>
      match applyEvent Q e s with
      | none => none
      | some s' => applyBatch Q e.time s' rest

/-- The inner loop of `Scheduler._fill_processors`, iterating over
processors in fixed index order starting at index `i` (with
`n = number of remaining indices`): an idle processor receives the next
popped packet — the code reads `packet.processor_index = i` without a
`None` check, so a `None` pop result raises, modelled by `none` — the
packet's `processor_index` and `start_time` are set, the processor is
marked busy, a DONE event is scheduled at `packet.end_time`
(`start_time + process_time` with `start_time` just set to the current
time), and the loop breaks early once the queue becomes empty. -/
def fillFrom (Q : QueueModel) : ℕ → ℕ → ℚ → Scheduler Q →
    Option (Scheduler Q)
  | 0, _, _, s => some s
  | n + 1, i, t, s =>
      match s.procs[i]? with
      | none => some s
      | some proc =>
          if proc.is_busy then fillFrom Q n (i + 1) t s
          else
            match Q.popQ s.queue t with
            | (none, _) => none
            | (some d, q') =>
                let s' : Scheduler Q := { s with
                  queue := q'
                  pkts := Function.update s.pkts d
                    { s.pkts d with processor_index := some i, start_time := some t }
                  procs := s.procs.set i (proc.set_is_busy t)
                  events := s.events ++
                    [⟨t + (s.pkts d).process_time, EventType.DONE, d⟩] }
                if Q.emptyQ s'.queue then some s'
                else fillFrom Q n (i + 1) t s'

/-- Model of `Scheduler._fill_processors`: nothing happens when the queue
is empty; otherwise idle processors are filled from the queue in fixed
processor order. -/
def fillProcessors (Q : QueueModel) (t : ℚ) (s : Scheduler Q) :
    Option (Scheduler Q) :=
  if Q.emptyQ s.queue then some s
  else fillFrom Q s.procs.length 0 t s

/-- Model of the event loop of `Scheduler.run`
(`while current_time < self.simulation_time and not self.event_set.empty()`),
with fuel: each iteration draws a batch, applies it (updating the clock),
and refills the processors.  When the fuel runs out the current clock and
state are returned, so a statement proved for every fuel holds at every
prefix of the run; `none` models a raised exception. -/
def runLoop (Q : QueueModel) : ℕ → ℚ → Scheduler Q →
    Option (ℚ × Scheduler Q)
  | 0, t, s => some (t, s)
  | fuel + 1, t, s =>
      if t < s.simulation_time ∧ s.events ≠ [] then
        let r := drawEvents s.simulation_time s.events
        match applyBatch Q t { s with events := r.2 } r.1 with
        | none => none
        | some (t', s₂) =>
            match fillProcessors Q t' s₂ with
            | none => none
            | some s₃ => runLoop Q fuel t' s₃
      else some (t, s)

/-- A `QueueModel` instance for `FIFOQueue`, wrapping the discipline
embedding above at element type `ℕ` (packet identifiers; a FIFO queue
never reads any packet field) and discarding the observer notifications,
which the scheduler does not consume. -/
def fifoModel : QueueModel where
  σ := FIFOQueue ℕ
  addPacket s id _ t :=
    let r := FIFOQueue.add_packet s id t
    (r.1, r.2.1)
  popQ s t :=
    let r := FIFOQueue.pop s t
    (r.2.1, r.1)
  emptyQ s := s.empty
  contents s := (s.q : Multiset ℕ)
  add_true := by
    intro s id pr t h
    by_cases hc : s.length_limit ≤ s.q.length
    · simp [FIFOQueue.add_packet, hc] at h
    · simp only [FIFOQueue.add_packet, hc, if_false]
      exact Multiset.coe_eq_coe.mpr (List.perm_append_singleton id s.q)
  add_false := by
    intro s id pr t h
    by_cases hc : s.length_limit ≤ s.q.length
    · simp [FIFOQueue.add_packet, hc]
    · simp [FIFOQueue.add_packet, hc] at h
  pop_some := by
    intro s t h
    simp only [FIFOQueue.empty] at h
    match hs : s.q with
    | [] => rw [hs] at h; simp at h
    | x :: rest =>
        refine ⟨x, { s with q := rest }, ?_, ?_⟩
        · simp [FIFOQueue.pop, hs]
        · simp [hs]
  empty_iff := by
    intro s
    simp [FIFOQueue.empty, Multiset.coe_eq_zero, List.length_eq_zero]

/-- The queue state after a sequence of `NPPSQueue.add_packet` calls
(each call keeps the state unchanged when it rejects). -/
def nppsAddFold (pkts : List Packet) (t : ℚ) (s0 : NPPSQueue) : NPPSQueue :=
  pkts.foldl (fun s x => (s.add_packet x t).1) s0

/-- The sequence of packets returned by `n` successive `WRRQueue.pop`
calls (stopping early if a pop returns no packet or raises), together
with the final queue state. -/
def wrrPopSeqAux (t : ℚ) : ℕ → WRRQueue → List Packet × WRRQueue
  | 0, s => ([], s)
  | n + 1, s =>
      match s.pop t with
      | some (some p, s', _) =>
          let r := wrrPopSeqAux t n s'
          (p :: r.1, r.2)
      | _ => ([], s)

/-- The pop sequence the weighted [2,1] round-robin cycle produces: one
packet of the weight-1 class, then two of the weight-2 class, repeated. -/
def cycleExpected : ℕ → List Packet → List Packet → List Packet
  | 0, _, _ => []
  | n + 1, A, B => B.take 1 ++ A.take 2 ++ cycleExpected n (A.drop 2) (B.drop 1)

/-- The packet identifiers of the pending SPAWN events. -/
def spawnPids (Q : QueueModel) (s : Scheduler Q) : List ℕ :=
  (s.events.filter (fun e => e.event_type == EventType.SPAWN)).map Event.pid

/-- The processor indices recorded in the packets of the pending DONE
events. -/
def donePIdx (Q : QueueModel) (s : Scheduler Q) : List (Option ℕ) :=
  (s.events.filter (fun e => e.event_type == EventType.DONE)).map
    (fun e => (s.pkts e.pid).processor_index)

/-- The state invariant of the scheduler loop.  It ties together the
packet heap, the queue contents, the pending events and the processor
pool: no packet is both dropped and dispatched; a packet without a start
time has no processor index; queued packets are neither dropped nor
dispatched and appear at most once; pending SPAWN events reference
fresh, unqueued packets and carry pairwise distinct packet identifiers;
pending DONE events reference dispatched packets whose recorded
processor exists, is busy with a recorded start, and no two pending DONE
events target the same processor. -/
structure Inv (Q : QueueModel) (s : Scheduler Q) : Prop where
  excl : ∀ id, ¬ ((s.pkts id).dropped = true ∧ (s.pkts id).start_time ≠ none)
  coupled : ∀ id, (s.pkts id).start_time = none →
    (s.pkts id).processor_index = none
  qIds : ∀ id ∈ Q.contents s.queue,
    (s.pkts id).dropped = false ∧ (s.pkts id).start_time = none
  qNodup : (Q.contents s.queue).Nodup
  spawnFresh : ∀ e ∈ s.events, e.event_type = EventType.SPAWN →
    (s.pkts e.pid).dropped = false ∧ (s.pkts e.pid).start_time = none ∧
      e.pid ∉ Q.contents s.queue
  spawnNodup : (spawnPids Q s).Nodup
  doneOk : ∀ e ∈ s.events, e.event_type = EventType.DONE →
    ∃ i p, (s.pkts e.pid).processor_index = some i ∧ s.procs[i]? = some p ∧
      p.is_busy = true ∧ p.start.isSome = true ∧
      (s.pkts e.pid).start_time ≠ none
  doneNodup : (donePIdx Q s).Nodup

/-- What the invariant guarantees about an event just popped from the
event set, relative to the state holding the remaining events. -/
def EventOk (Q : QueueModel) (s : Scheduler Q) (e : Event) : Prop :=
  (e.event_type = EventType.SPAWN →
    (s.pkts e.pid).dropped = false ∧ (s.pkts e.pid).start_time = none ∧
      e.pid ∉ Q.contents s.queue ∧ e.pid ∉ spawnPids Q s) ∧
  (e.event_type = EventType.DONE →
    ∃ i p, (s.pkts e.pid).processor_index = some i ∧ s.procs[i]? = some p ∧
      p.is_busy = true ∧ p.start.isSome = true ∧
      (s.pkts e.pid).start_time ≠ none ∧ some i ∉ donePIdx Q s)

/-!  Theorems about the claims. -/

/-- C1.  The claim states that every event sharing the earliest popped
event's timestamp is drained in the same atomic batch before any
processor refill.  The code compares `self.event_set.top().time` (a
float) with the `Event` object itself instead of with `event.time`, a
comparison that is always `False` in Python, so the batch never extends
past the first event: with two SPAWN events both at time 1 and horizon
10, `_draw_events` yields only the first event and leaves the second in
the event set, and `run` refills processors between the two
same-timestamp events. -/
theorem c1_same_timestamp_batch_broken :
    drawEvents 10 [⟨1, EventType.SPAWN, 0⟩, ⟨1, EventType.SPAWN, 1⟩] =
      ([⟨1, EventType.SPAWN, 0⟩], [⟨1, EventType.SPAWN, 1⟩]) ∧
    (⟨1, EventType.SPAWN, 0⟩ : Event).time =
      (⟨1, EventType.SPAWN, 1⟩ : Event).time ∧
    ((1 : ℚ) < 10) := by
  refine ⟨?_, rfl, by norm_num⟩
  rfl

/-- C2.  The claim states that a successful pop notifies observers
strictly after the removal has committed, with `new_length` equal to the
queue's length after the popped packet was removed.  In the code,
`FIFOQueue.pop` and `NPPSQueue.pop` invoke `super().pop` — which
notifies with `new_length = self.length()` — BEFORE removing the packet,
so the notification carries the pre-removal length: popping a one-packet
queue notifies `new_length = 1` although the post-removal length is 0
(and `QueueLengthObserver._handle_pop`, which reconstructs the previous
length as `new_length + 1`, is thereby corrupted). -/
theorem c2_pop_notification_precedes_removal :
    (FIFOQueue.pop (⟨1, [⟨10, 1, 2, Priority.HIGH, none, none, false⟩]⟩ :
        FIFOQueue Packet) 5).2.2 = [⟨NKind.POP, 5, 1, none⟩] ∧
    (FIFOQueue.pop (⟨1, [⟨10, 1, 2, Priority.HIGH, none, none, false⟩]⟩ :
        FIFOQueue Packet) 5).1.length = 0 ∧
    (NPPSQueue.pop ⟨1, [⟨10, 1, 2, Priority.HIGH, none, none, false⟩]⟩ 5).2.2 =
      [⟨NKind.POP, 5, 1, none⟩] ∧
    (NPPSQueue.pop ⟨1, [⟨10, 1, 2, Priority.HIGH, none, none, false⟩]⟩ 5).1.q.length = 0 ∧
    (1 : ℕ) ≠ 0 := by
  exact ⟨rfl, rfl, rfl, rfl, by norm_num⟩

/-- C3, counterexample.  The claim states that constructing a Scheduler
with an invalid configuration (non-positive rates, non-positive horizon,
zero processors, empty priority-weight vector) is rejected at
construction time.  `Scheduler.__init__` performs no validation: with
arrival rate −1, service rate 0, horizon −5, zero processors and an
empty weight vector, construction succeeds silently and stores every
value as given. -/
theorem c3_invalid_config_accepted :
    (schedulerInit fifoModel ⟨5, []⟩ (-1) 0 (-5) 0 []).host_rate = -1 ∧
    (schedulerInit fifoModel ⟨5, []⟩ (-1) 0 (-5) 0 []).process_rate = 0 ∧
    (schedulerInit fifoModel ⟨5, []⟩ (-1) 0 (-5) 0 []).simulation_time = -5 ∧
    (schedulerInit fifoModel ⟨5, []⟩ (-1) 0 (-5) 0 []).procs = [] ∧
    (schedulerInit fifoModel ⟨5, []⟩ (-1) 0 (-5) 0 []).priority_probs = [] ∧
    ¬ ((0 : ℚ) < (schedulerInit fifoModel ⟨5, []⟩ (-1) 0 (-5) 0 []).host_rate) := by
  refine ⟨rfl, rfl, rfl, rfl, rfl, by norm_num [schedulerInit]⟩

/-- C3, amended.  Scheduler construction performs no validation
whatsoever: every configuration — including non-positive rates and
horizon, a non-positive processor count and an empty priority-weight
vector — is accepted, and each parameter is stored unchanged (with
`max(processors, 0)` fresh idle processors, an empty event set and an
empty packet list). -/
theorem c3_init_stores_config_unvalidated (Q : QueueModel) (q0 : Q.σ)
    (x y t : ℚ) (processors : ℤ) (probs : List ℚ) :
    (schedulerInit Q q0 x y t processors probs).queue = q0 ∧
    (schedulerInit Q q0 x y t processors probs).host_rate = x ∧
    (schedulerInit Q q0 x y t processors probs).process_rate = y ∧
    (schedulerInit Q q0 x y t processors probs).simulation_time = t ∧
    (schedulerInit Q q0 x y t processors probs).priority_probs = probs ∧
    (schedulerInit Q q0 x y t processors probs).procs =
      List.replicate processors.toNat Processor.initial ∧
    (schedulerInit Q q0 x y t processors probs).events = [] ∧
    (schedulerInit Q q0 x y t processors probs).all_packets = [] :=
  ⟨rfl, rfl, rfl, rfl, rfl, rfl, rfl, rfl⟩

/-- C4.  The claim states that `waiting_time` equals
`start_time − enter_time` whenever the packet has been dispatched,
including a start time of exactly 0.  The code computes
`(self.start_time or self.simulation_time) - self.enter_time`, and
Python's `or` treats the float `0` as falsy: a packet dispatched at time
0 (horizon 10, enter time 0) reports waiting time 10 instead of the
claimed 0, despite `has_started` being true. -/
theorem c4_waiting_time_zero_start_bug :
    (Packet.waiting_time ⟨10, 0, 1, Priority.HIGH, some 0, some 0, false⟩ = 10) ∧
    (Packet.has_started ⟨10, 0, 1, Priority.HIGH, some 0, some 0, false⟩ = true) ∧
    ((10 : ℚ) ≠ 0 - 0) := by
  refine ⟨?_, rfl, by norm_num⟩
  simp [Packet.waiting_time, pyOrQ]

/-- Helper for C6: if every FIFO child respects its capacity and the
total stored length equals the total capacity, then every child is
exactly full. -/
theorem children_full_of_sum_eq (l : List (FIFOQueue Packet))
    (hle : ∀ c ∈ l, c.q.length ≤ c.length_limit)
    (hsum : (l.map (fun c => c.q.length)).sum =
      (l.map (fun c => c.length_limit)).sum) :
    ∀ c ∈ l, c.q.length = c.length_limit := by
  induction l with
  | nil => intro c hc; simp at hc
  | cons a l ih =>
      have ha : a.q.length ≤ a.length_limit := hle a (List.mem_cons_self a l)
      have hrest : ∀ c ∈ l, c.q.length ≤ c.length_limit :=
        fun c hc => hle c (List.mem_cons_of_mem a hc)
      have hsle : (l.map (fun c => c.q.length)).sum ≤
          (l.map (fun c => c.length_limit)).sum :=
        List.sum_le_sum hrest
      simp only [List.map_cons, List.sum_cons] at hsum
      have h1 : a.q.length = a.length_limit := by omega
      have h2 : (l.map (fun c => c.q.length)).sum =
          (l.map (fun c => c.length_limit)).sum := by omega
      intro c hc
      rcases List.mem_cons.mp hc with h | h
      · exact h ▸ h1
      · exact ih hrest h2 c h

/-- C6.  For every discipline, `add_packet` on a queue whose length
equals its capacity returns false, leaves the state (hence length and
contents) unchanged, and fires no observer notification.  For the
composite WRR discipline, a queue at total capacity (every child within
its capacity, total length equal to total capacity) likewise rejects any
packet whose priority indexes an existing child. -/
theorem c6_add_at_capacity_rejected :
    (∀ (s : FIFOQueue Packet) (x : Packet) (t : ℚ),
      s.q.length = s.length_limit → s.add_packet x t = (s, false, [])) ∧
    (∀ (s : NPPSQueue) (x : Packet) (t : ℚ),
      s.q.length = s.length_limit → s.add_packet x t = (s, false, [])) ∧
    (∀ (s : WRRQueue) (x : Packet) (t : ℚ),
      (∀ c ∈ s.queues, c.q.length ≤ c.length_limit) →
      s.length = (s.queues.map (fun c => c.length_limit)).sum →
      x.priority.toIdx < s.queues.length →
      s.add_packet x t = some (s, false, [])) := by
  refine ⟨?_, ?_, ?_⟩
  · intro s x t h
    simp [FIFOQueue.add_packet, h.ge]
  · intro s x t h
    simp [NPPSQueue.add_packet, h]
  · intro s x t hle hfull hidx
    have hchild : s.queues[x.priority.toIdx]? =
        some s.queues[x.priority.toIdx] := List.getElem?_eq_getElem hidx
    have hmem : s.queues[x.priority.toIdx] ∈ s.queues :=
      List.getElem_mem hidx
    have hfullc : (s.queues[x.priority.toIdx]).q.length =
        (s.queues[x.priority.toIdx]).length_limit :=
      children_full_of_sum_eq s.queues hle hfull _ hmem
    simp only [WRRQueue.add_packet, hchild]
    simp [FIFOQueue.add_packet, hfullc.ge]

/-- C6, witness: a full FIFO queue of capacity 1, a full NPPS queue of
capacity 1, and a WRR queue whose two children (capacity 1 each) are
both full all reject an incoming packet unchanged and silently. -/
theorem c6_add_at_capacity_rejected_witness :
    ((⟨1, [⟨10, 1, 2, Priority.MEDIUM, none, none, false⟩]⟩ :
        FIFOQueue Packet).add_packet
        ⟨10, 2, 2, Priority.MEDIUM, none, none, false⟩ 3 =
      (⟨1, [⟨10, 1, 2, Priority.MEDIUM, none, none, false⟩]⟩, false, [])) ∧
    ((⟨1, [⟨10, 1, 2, Priority.MEDIUM, none, none, false⟩]⟩ :
        NPPSQueue).add_packet
        ⟨10, 2, 2, Priority.MEDIUM, none, none, false⟩ 3 =
      (⟨1, [⟨10, 1, 2, Priority.MEDIUM, none, none, false⟩]⟩, false, [])) ∧
    ((⟨[⟨1, [⟨10, 1, 2, Priority.LOW, none, none, false⟩]⟩,
        ⟨1, [⟨10, 1, 2, Priority.MEDIUM, none, none, false⟩]⟩], [2, 1], 1, 0⟩ :
        WRRQueue).add_packet
        ⟨10, 2, 2, Priority.MEDIUM, none, none, false⟩ 3 =
      some (⟨[⟨1, [⟨10, 1, 2, Priority.LOW, none, none, false⟩]⟩,
        ⟨1, [⟨10, 1, 2, Priority.MEDIUM, none, none, false⟩]⟩], [2, 1], 1, 0⟩,
        false, [])) :=
  ⟨c6_add_at_capacity_rejected.1 _ _ 3 (by decide),
   c6_add_at_capacity_rejected.2.1 _ _ 3 (by decide),
   c6_add_at_capacity_rejected.2.2 _ _ 3 (by decide) (by decide) (by decide)⟩

/-- Helper for C7: the bubbled list is a permutation of the new element
consed onto the old list. -/
theorem bubbleRev_perm (x : Packet) (r : List Packet) :
    List.Perm (bubbleRev x r) (x :: r) := by
  induction r with
  | nil => exact List.Perm.refl _
  | cons a r ih =>
      simp only [bubbleRev]
      split
      · exact (ih.cons a).trans (List.Perm.swap x a r)
      · exact List.Perm.refl _

/-- Helper for C7: the bubbling loop splits the reversed queue at the
first position (from the tail) holding a packet of priority at least
that of the inserted packet: every passed element has strictly lower
priority and the element it stops at, if any, does not. -/
theorem bubbleRev_decomp (x : Packet) (r : List Packet) :
    ∃ r1 r2, r = r1 ++ r2 ∧ bubbleRev x r = r1 ++ x :: r2 ∧
      (∀ a ∈ r1, a.priority.toIdx < x.priority.toIdx) ∧
      (∀ a, r2.head? = some a → x.priority.toIdx ≤ a.priority.toIdx) := by
  induction r with
  | nil => exact ⟨[], [], rfl, rfl, by simp, by simp⟩
  | cons a r ih =>
      by_cases h : a.priority.toIdx < x.priority.toIdx
      · obtain ⟨r1, r2, he, hb, hlow, hstop⟩ := ih
        refine ⟨a :: r1, r2, by simp [he], ?_, ?_, hstop⟩
        · simp only [bubbleRev, if_pos h, hb, List.cons_append]
        · intro b hb'
          rcases List.mem_cons.mp hb' with h' | h'
          · exact h' ▸ h
          · exact hlow b h'
      · refine ⟨[], a :: r, rfl, ?_, by simp, ?_⟩
        · simp only [bubbleRev, if_neg h, List.nil_append]
        · intro b hb'
          simp only [List.head?_cons, Option.some_inj] at hb'
          subst hb'
          omega

/-- Helper for C7: bubbling preserves sortedness of the reversed queue
(non-decreasing priority from the head, i.e. non-increasing priority in
stored order). -/
theorem bubbleRev_sorted (x : Packet) (r : List Packet)
    (h : r.Pairwise (fun a b => a.priority.toIdx ≤ b.priority.toIdx)) :
    (bubbleRev x r).Pairwise
      (fun a b => a.priority.toIdx ≤ b.priority.toIdx) := by
  induction r with
  | nil => simp [bubbleRev]
  | cons a r ih =>
      rcases List.pairwise_cons.mp h with ⟨ha, hr⟩
      by_cases hc : a.priority.toIdx < x.priority.toIdx
      · simp only [bubbleRev, if_pos hc]
        refine List.pairwise_cons.mpr ⟨?_, ih hr⟩
        intro b hb
        rcases List.mem_cons.mp ((bubbleRev_perm x r).mem_iff.mp hb) with h' | h'
        · subst h'; omega
        · exact ha b h'
      · simp only [bubbleRev, if_neg hc]
        refine List.pairwise_cons.mpr ⟨?_, h⟩
        intro b hb
        rcases List.mem_cons.mp hb with h' | h'
        · subst h'; omega
        · have := ha b h'; omega

/-- Helper for C7: inserting into a queue sorted by non-increasing
priority keeps it sorted. -/
theorem nppsInsert_sorted (x : Packet) (q : List Packet)
    (h : q.Pairwise (fun a b => b.priority.toIdx ≤ a.priority.toIdx)) :
    (nppsInsert x q).Pairwise
      (fun a b => b.priority.toIdx ≤ a.priority.toIdx) := by
  have hrev : q.reverse.Pairwise
      (fun a b => a.priority.toIdx ≤ b.priority.toIdx) :=
    List.pairwise_reverse.mpr h
  exact List.pairwise_reverse.mpr (bubbleRev_sorted x q.reverse hrev)

/-- Helper for C7: inserting a packet appends it to the sequence of
stored packets of its own priority class and leaves the sequence of
every other priority class unchanged. -/
theorem nppsInsert_filter (x : Packet) (q : List Packet) (pr : Priority) :
    (nppsInsert x q).filter (fun p => p.priority == pr) =
      q.filter (fun p => p.priority == pr) ++
        (if x.priority = pr then [x] else []) := by
  obtain ⟨r1, r2, he, hb, hlow, _⟩ := bubbleRev_decomp x q.reverse
  have hq : q = r2.reverse ++ r1.reverse := by
    have h' := congrArg List.reverse he
    simpa [List.reverse_append] using h'
  have hins : nppsInsert x q = r2.reverse ++ x :: r1.reverse := by
    simp [nppsInsert, hb, List.reverse_append]
  by_cases hx : x.priority = pr
  · have hr1 : r1.reverse.filter (fun p => p.priority == pr) = [] := by
      rw [List.filter_eq_nil_iff]
      intro a ha
      have hlt := hlow a (List.mem_reverse.mp ha)
      simp only [beq_iff_eq]
      intro heq
      have hax : a.priority = x.priority := by rw [heq, hx]
      rw [hax] at hlt
      omega
    rw [hins, hq, if_pos hx]
    simp [List.filter_append, hr1, hx]
  · rw [hins, hq, if_neg hx]
    have hxf : ((fun p => p.priority == pr) x) = false := by
      simp [beq_iff_eq]; exact hx
    simp [List.filter_append, List.filter_cons, hxf]


/-- Helper for C7: any sequence of adds starting from a sorted queue
leaves the queue sorted by non-increasing priority. -/
theorem nppsAddFold_sorted (t : ℚ) :
    ∀ (pkts : List Packet) (s0 : NPPSQueue),
    s0.q.Pairwise (fun a b => b.priority.toIdx ≤ a.priority.toIdx) →
    (nppsAddFold pkts t s0).q.Pairwise
      (fun a b => b.priority.toIdx ≤ a.priority.toIdx) := by
  intro pkts
  induction pkts with
  | nil => intro s0 h; exact h
  | cons x pkts ih =>
      intro s0 h
      have hstep : ((s0.add_packet x t).1).q.Pairwise
          (fun a b => b.priority.toIdx ≤ a.priority.toIdx) := by
        by_cases hc : s0.q.length = s0.length_limit
        · simpa [NPPSQueue.add_packet, hc] using h
        · simpa [NPPSQueue.add_packet, hc] using nppsInsert_sorted x s0.q h
      exact ih _ hstep

/-- Helper for C7: within each priority class, the stored packets form a
subsequence (in order) of the added packets of that class appended to
the initial contents of that class. -/
theorem nppsAddFold_filter_sublist (t : ℚ) (pr : Priority) :
    ∀ (pkts : List Packet) (s0 : NPPSQueue),
    List.Sublist ((nppsAddFold pkts t s0).q.filter (fun p => p.priority == pr))
      (s0.q.filter (fun p => p.priority == pr) ++
        pkts.filter (fun p => p.priority == pr)) := by
  intro pkts
  induction pkts with
  | nil =>
      intro s0
      simp only [nppsAddFold, List.foldl_nil, List.filter_nil, List.append_nil]
      exact List.Sublist.refl _
  | cons x pkts ih =>
      intro s0
      rw [show nppsAddFold (x :: pkts) t s0 =
        nppsAddFold pkts t ((s0.add_packet x t).1) from rfl]
      by_cases hc : s0.q.length = s0.length_limit
      · have hrej : (s0.add_packet x t).1 = s0 := by
          simp [NPPSQueue.add_packet, hc]
        rw [hrej]
        refine (ih s0).trans (List.Sublist.append_left ?_ _)
        rw [List.filter_cons]
        split
        · exact List.sublist_cons_self _ _
        · exact List.Sublist.refl _
      · have h2 := ih ((s0.add_packet x t).1)
        have hadm : ((s0.add_packet x t).1).q = nppsInsert x s0.q := by
          simp [NPPSQueue.add_packet, hc]
        rw [hadm, nppsInsert_filter] at h2
        refine h2.trans ?_
        rw [List.filter_cons]
        by_cases hx : x.priority = pr
        · have hxt : (x.priority == pr) = true := by simp [hx]
          rw [if_pos hx, if_pos hxt, List.append_assoc, List.singleton_append]
        · have hxf : ¬ ((x.priority == pr) = true) := by simp [hx]
          rw [if_neg hx, if_neg hxf, List.append_nil]

/-- C7.  Starting from an empty NPPS queue, after any sequence of adds
the stored queue is ordered by non-increasing priority (so successive
pops, each removing the current head, yield a non-increasing priority
sequence); within each priority class the stored packets are, in order,
a subsequence of the packets added with that priority (arrival order is
preserved among equal priorities); a newly added packet is moved left
exactly past the maximal run of strictly lower-priority neighbours at
the tail, stopping at the first neighbour of equal or higher priority;
and pop always removes the current head of the stored queue. -/
theorem c7_npps_priority_order :
    (∀ (pkts : List Packet) (t : ℚ) (cap : ℕ),
      (nppsAddFold pkts t ⟨cap, []⟩).q.Pairwise
        (fun a b => b.priority.toIdx ≤ a.priority.toIdx)) ∧
    (∀ (pkts : List Packet) (t : ℚ) (cap : ℕ) (pr : Priority),
      List.Sublist
        ((nppsAddFold pkts t ⟨cap, []⟩).q.filter (fun p => p.priority == pr))
        (pkts.filter (fun p => p.priority == pr))) ∧
    (∀ (x : Packet) (q : List Packet), ∃ l1 l2,
      q = l1 ++ l2 ∧ nppsInsert x q = l1 ++ x :: l2 ∧
      (∀ a ∈ l2, a.priority.toIdx < x.priority.toIdx) ∧
      (∀ a, l1.getLast? = some a → x.priority.toIdx ≤ a.priority.toIdx)) ∧
    (∀ (s : NPPSQueue) (t : ℚ), (s.pop t).2.1 = s.q.head?) := by
  refine ⟨?_, ?_, ?_, ?_⟩
  · intro pkts t cap
    exact nppsAddFold_sorted t pkts ⟨cap, []⟩ (List.Pairwise.nil)
  · intro pkts t cap pr
    simpa using nppsAddFold_filter_sublist t pr pkts ⟨cap, []⟩
  · intro x q
    obtain ⟨r1, r2, he, hb, hlow, hstop⟩ := bubbleRev_decomp x q.reverse
    refine ⟨r2.reverse, r1.reverse, ?_, ?_, ?_, ?_⟩
    · have h' := congrArg List.reverse he
      simpa [List.reverse_append] using h'
    · simp [nppsInsert, hb, List.reverse_append]
    · intro a ha
      exact hlow a (List.mem_reverse.mp ha)
    · intro a ha
      rw [List.getLast?_reverse] at ha
      exact hstop a ha
  · intro s t
    cases hq : s.q with
    | nil => simp [NPPSQueue.pop, hq]
    | cons a l => simp [NPPSQueue.pop, hq]

/-- C7, witness: adding a LOW and then a HIGH packet to an empty NPPS
queue of capacity 10 leaves the stored queue sorted by non-increasing
priority, and pop on a singleton queue returns its head. -/
theorem c7_npps_priority_order_witness :
    (nppsAddFold [⟨10, 1, 1, Priority.LOW, none, none, false⟩,
        ⟨10, 2, 1, Priority.HIGH, none, none, false⟩] 0 ⟨10, []⟩).q.Pairwise
      (fun a b => b.priority.toIdx ≤ a.priority.toIdx) ∧
    ((⟨10, [⟨10, 2, 1, Priority.HIGH, none, none, false⟩]⟩ : NPPSQueue).pop 3).2.1 =
      ([⟨10, 2, 1, Priority.HIGH, none, none, false⟩] : List Packet).head? :=
  ⟨c7_npps_priority_order.1 _ 0 10, c7_npps_priority_order.2.2.2 _ 3⟩


/-- Helper for C8: a pop from the state with the cursor fresh on child 1
(weights [2, 1]) serves the head of child 1, exhausts its weight-1 quota
and advances the cursor to child 0. -/
theorem wrr_pop_b (t : ℚ) (ca cb : ℕ) (A : List Packet) (b : Packet)
    (B : List Packet) :
    ∃ ns, WRRQueue.pop ⟨[⟨ca, A⟩, ⟨cb, b :: B⟩], [2, 1], 1, 0⟩ t =
      some (some b, ⟨[⟨ca, A⟩, ⟨cb, B⟩], [2, 1], 0, 0⟩, ns) := by
  have hne : (⟨[⟨ca, A⟩, ⟨cb, b :: B⟩], [2, 1], 1, 0⟩ : WRRQueue).empty = false := by
    simp [WRRQueue.empty, FIFOQueue.empty]
  refine ⟨[⟨NKind.POP, t, (b :: B).length, none⟩,
    ⟨NKind.POP, t, A.length + (B.length + 0), none⟩], ?_⟩
  simp only [WRRQueue.pop, hne, Bool.false_eq_true, if_false]
  rfl

/-- Helper for C8: a pop from a state with the cursor on child 0 and one
unit of weight-2 quota already used (weights [2, 1]) serves the head of
child 0, exhausts the quota and advances the cursor back to child 1. -/
theorem wrr_pop_a2 (t : ℚ) (ca cb : ℕ) (a : Packet) (A B : List Packet) :
    ∃ ns, WRRQueue.pop ⟨[⟨ca, a :: A⟩, ⟨cb, B⟩], [2, 1], 0, 1⟩ t =
      some (some a, ⟨[⟨ca, A⟩, ⟨cb, B⟩], [2, 1], 1, 0⟩, ns) :=
  ⟨_, rfl⟩

/-- Helper for C8: a pop from a state with the cursor fresh on child 0
(weights [2, 1]) serves the head of child 0 and keeps the cursor there
with one unit of quota consumed. -/
theorem wrr_pop_a1 (t : ℚ) (ca cb : ℕ) (a : Packet) (A B : List Packet) :
    ∃ ns, WRRQueue.pop ⟨[⟨ca, a :: A⟩, ⟨cb, B⟩], [2, 1], 0, 0⟩ t =
      some (some a, ⟨[⟨ca, A⟩, ⟨cb, B⟩], [2, 1], 0, 1⟩, ns) :=
  ⟨_, rfl⟩

/-- Helper for C8: with weights [2, 1] and both children holding enough
packets, every three successive pops serve one packet of child 1 and two
of child 0 and return the cursor to its starting position. -/
theorem wrr_cycle (t : ℚ) (ca cb : ℕ) :
    ∀ (n : ℕ) (A B : List Packet), A.length = 2 * n → B.length = n →
    (wrrPopSeqAux t (3 * n) ⟨[⟨ca, A⟩, ⟨cb, B⟩], [2, 1], 1, 0⟩).1 =
      cycleExpected n A B := by
  intro n
  induction n with
  | zero =>
      intro A B hA hB
      have hA' : A = [] := List.length_eq_zero.mp (by omega)
      have hB' : B = [] := List.length_eq_zero.mp (by omega)
      subst hA'; subst hB'
      rfl
  | succ n ih =>
      intro A B hA hB
      obtain ⟨a1, A1, rfl⟩ : ∃ a1 A1, A = a1 :: A1 := by
        cases A with
        | nil => simp at hA
        | cons x l => exact ⟨x, l, rfl⟩
      obtain ⟨a2, A2, rfl⟩ : ∃ a2 A2, A1 = a2 :: A2 := by
        cases A1 with
        | nil => simp at hA; omega
        | cons x l => exact ⟨x, l, rfl⟩
      obtain ⟨b, B1, rfl⟩ : ∃ b B1, B = b :: B1 := by
        cases B with
        | nil => simp at hB
        | cons x l => exact ⟨x, l, rfl⟩
      obtain ⟨n1, h1⟩ := wrr_pop_b t ca cb (a1 :: a2 :: A2) b B1
      obtain ⟨n2, h2⟩ := wrr_pop_a1 t ca cb a1 (a2 :: A2) B1
      obtain ⟨n3, h3⟩ := wrr_pop_a2 t ca cb a2 A2 B1
      rw [show 3 * (n + 1) = 3 * n + 1 + 1 + 1 by ring]
      simp only [wrrPopSeqAux, h1, h2, h3, cycleExpected]
      simp only [List.take, List.drop]
      have hA2 : A2.length = 2 * n := by
        simp only [List.length_cons] at hA
        omega
      have hB1 : B1.length = n := by
        simp only [List.length_cons] at hB
        omega
      rw [ih A2 B1 hA2 hB1]
      simp

/-- Helper: a successful optional lookup implies the index is in
range. -/
theorem lt_of_getElem?_some {α : Type} {l : List α} {i : ℕ} {a : α}
    (h : l[i]? = some a) : i < l.length := by
  by_contra hc
  rw [List.getElem?_eq_none (by omega)] at h
  exact Option.noConfusion h

/-- Helper for C8: a WRR queue whose cursor child is non-empty is not
empty. -/
theorem wrr_empty_false_of_child {s : WRRQueue} {limit : ℕ} {p : Packet}
    {rest : List Packet}
    (hq : s.queues[s.currentQueueIndex.toNat]? = some ⟨limit, p :: rest⟩) :
    s.empty = false := by
  apply List.all_eq_false.mpr
  exact ⟨_, List.getElem?_mem hq, by simp [FIFOQueue.empty]⟩

/-- Helper for C8: a quota run.  If the popped counter needs `k` more
serves to reach the weight `w` of the child under the cursor, and that
child holds at least `k` packets, then the next `k` pops all serve that
child in stored order (no other child is touched and the cursor does not
move in between), and after the `k`-th serve the cursor advances to the
next child with the counter reset. -/
theorem wrr_serve_run (t : ℚ) :
    ∀ (k : ℕ) (s : WRRQueue) (w limit : ℕ) (q : List Packet),
    s.weights[s.currentQueueIndex.toNat]? = some w →
    s.queues[s.currentQueueIndex.toNat]? = some ⟨limit, q⟩ →
    s.currentQueuePopped + k = w →
    1 ≤ k → k ≤ q.length →
    (wrrPopSeqAux t k s).1 = q.take k ∧
    (wrrPopSeqAux t k s).2 = { s with
      queues := s.queues.set s.currentQueueIndex.toNat ⟨limit, q.drop k⟩,
      currentQueueIndex :=
        (s.currentQueueIndex - 1).emod (s.queues.length : ℤ),
      currentQueuePopped := 0 } := by
  intro k
  induction k with
  | zero => intro s w limit q _ _ _ hk _; omega
  | succ k ih =>
      intro s w limit q hw hq hquota _ hlen
      obtain ⟨p, rest, rfl⟩ : ∃ p rest, q = p :: rest := by
        cases q with
        | nil => simp at hlen
        | cons x l => exact ⟨x, l, rfl⟩
      have hidx : s.currentQueueIndex.toNat < s.queues.length :=
        lt_of_getElem?_some hq
      have hne : s.empty = false := wrr_empty_false_of_child hq
      obtain ⟨m, hm⟩ : ∃ m, s.queues.length = m + 1 :=
        ⟨s.queues.length - 1, by omega⟩
      have hchild_ne : (⟨limit, p :: rest⟩ : FIFOQueue Packet).empty = false := by
        simp [FIFOQueue.empty]
      cases k with
      | zero =>
          have hcase : s.currentQueuePopped + 1 = w := by omega
          refine ⟨?_, ?_⟩ <;>
            simp only [wrrPopSeqAux, WRRQueue.pop, hne, Bool.false_eq_true,
              if_false, hm, WRRQueue.popLoop, hq, hchild_ne, FIFOQueue.pop,
              hw, if_pos hcase, WRRQueue.nextQueue, List.length_set,
              List.take, List.drop]
      | succ k' =>
          have hcase : ¬ (s.currentQueuePopped + 1 = w) := by omega
          have hrec := ih
            { s with
              queues := s.queues.set s.currentQueueIndex.toNat ⟨limit, rest⟩
              currentQueuePopped := s.currentQueuePopped + 1 }
            w limit rest
            (by simpa using hw)
            (by simpa using List.getElem?_set_self hidx)
            (by simp; omega)
            (by omega)
            (by simp only [List.length_cons] at hlen; omega)
          simp only at hrec
          generalize hj : k' + 1 = j at hrec ⊢
          refine ⟨?_, ?_⟩ <;>
            simp only [wrrPopSeqAux, WRRQueue.pop, hne, Bool.false_eq_true,
              if_false, hm, WRRQueue.popLoop, hq, hchild_ne, FIFOQueue.pop,
              hw, if_neg hcase, List.take_succ_cons, List.drop_succ_cons]
          · rw [hrec.1]
          · rw [hrec.2]
            simp [List.set_set, List.length_set]
            rw [hm]
            push_cast
            rfl

/-- Helper for C8: the round-robin loop's result does not change when it
is given one more unit of fuel (the serve branch does not recurse, and
the skip branch is fuel-indifferent by induction). -/
theorem popLoop_fuel_succ (t : ℚ) :
    ∀ (n : ℕ) (s : WRRQueue) (r : Packet × WRRQueue × List (Notification Packet)),
    WRRQueue.popLoop t n s = some r → WRRQueue.popLoop t (n + 1) s = some r := by
  intro n
  induction n with
  | zero =>
      intro s r h
      simp [WRRQueue.popLoop] at h
  | succ n ih =>
      intro s r h
      cases hqe : s.queues[s.currentQueueIndex.toNat]? with
      | none =>
          simp only [WRRQueue.popLoop, hqe] at h
          exact Option.noConfusion h
      | some child =>
          by_cases hce : child.empty = true
          · have hskip : WRRQueue.popLoop t (n + 1) s =
                WRRQueue.popLoop t n s.nextQueue := by
              conv_lhs => rw [WRRQueue.popLoop]
              simp [hqe, hce]
            have hskip2 : WRRQueue.popLoop t (n + 1 + 1) s =
                WRRQueue.popLoop t (n + 1) s.nextQueue := by
              conv_lhs => rw [WRRQueue.popLoop]
              simp [hqe, hce]
            rw [hskip] at h
            rw [hskip2]
            exact ih _ _ h
          · have hserve : WRRQueue.popLoop t (n + 1 + 1) s =
                WRRQueue.popLoop t (n + 1) s := by
              conv_lhs => rw [WRRQueue.popLoop]
              conv_rhs => rw [WRRQueue.popLoop]
              simp only [hqe, if_neg hce]
            rw [hserve]
            exact h

/-- Helper for C8: the round-robin loop succeeds whenever, scanning from
the cursor in decreasing cyclic index order, some child within the
fuel's reach is non-empty (the weight list being aligned with the child
list). -/
theorem popLoop_isSome (t : ℚ) :
    ∀ (fuel : ℕ) (s : WRRQueue),
    s.queues.length = s.weights.length →
    0 ≤ s.currentQueueIndex →
    s.currentQueueIndex < (s.queues.length : ℤ) →
    (∃ j : ℕ, j < fuel ∧ ∃ c,
      s.queues[((s.currentQueueIndex - (j : ℤ)).emod
        (s.queues.length : ℤ)).toNat]? = some c ∧ c.empty = false) →
    (WRRQueue.popLoop t fuel s).isSome = true := by
  intro fuel
  induction fuel with
  | zero =>
      intro s _ _ _ hfound
      obtain ⟨j, hj, _⟩ := hfound
      omega
  | succ fuel ih =>
      intro s hlw h0 hlt hfound
      have hlen0 : (0 : ℤ) < (s.queues.length : ℤ) := lt_of_le_of_lt h0 hlt
      have hidxnat : s.currentQueueIndex.toNat < s.queues.length := by omega
      have hqe : s.queues[s.currentQueueIndex.toNat]? =
          some s.queues[s.currentQueueIndex.toNat] :=
        List.getElem?_eq_getElem hidxnat
      by_cases hce : (s.queues[s.currentQueueIndex.toNat]).empty = true
      · obtain ⟨j, hj, c, hc, hcne⟩ := hfound
        have hj0 : j ≠ 0 := by
          intro hj'
          subst hj'
          have hix : ((s.currentQueueIndex - ((0 : ℕ) : ℤ)).emod
              (s.queues.length : ℤ)) = s.currentQueueIndex := by
            push_cast
            rw [sub_zero]
            exact Int.emod_eq_of_lt h0 hlt
          rw [hix, hqe] at hc
          have hcc : c = s.queues[s.currentQueueIndex.toNat] :=
            (Option.some_inj.mp hc).symm
          rw [hcc] at hcne
          rw [hcne] at hce
          exact Bool.noConfusion hce
        obtain ⟨j', rfl⟩ : ∃ j', j = j' + 1 := ⟨j - 1, by omega⟩
        have hunf : WRRQueue.popLoop t (fuel + 1) s =
            WRRQueue.popLoop t fuel s.nextQueue := by
          conv_lhs => rw [WRRQueue.popLoop]
          simp [hqe, hce]
        rw [hunf]
        apply ih s.nextQueue hlw (Int.emod_nonneg _ (by omega))
          (Int.emod_lt_of_pos _ hlen0)
        refine ⟨j', by omega, c, ?_, hcne⟩
        have harith : ((s.nextQueue.currentQueueIndex - (j' : ℤ)).emod
            (s.queues.length : ℤ)) =
            ((s.currentQueueIndex - ((j' + 1 : ℕ) : ℤ)).emod
              (s.queues.length : ℤ)) := by
          show ((s.currentQueueIndex - 1) % (s.queues.length : ℤ) -
              (j' : ℤ)) % (s.queues.length : ℤ) =
            (s.currentQueueIndex - ((j' + 1 : ℕ) : ℤ)) % (s.queues.length : ℤ)
          rw [Int.sub_emod ((s.currentQueueIndex - 1) %
            (s.queues.length : ℤ)) (j' : ℤ) (s.queues.length : ℤ)]
          rw [Int.emod_emod_of_dvd _ dvd_rfl]
          rw [← Int.sub_emod]
          congr 1
          push_cast
          ring
        rw [show s.nextQueue.queues = s.queues from rfl, harith]
        exact hc
      · cases hsq : (s.queues[s.currentQueueIndex.toNat]).q with
        | nil =>
            exact absurd (by simp [FIFOQueue.empty, hsq]) hce
        | cons p rest =>
            have hwq : s.weights[s.currentQueueIndex.toNat]? =
                some s.weights[s.currentQueueIndex.toNat] :=
              List.getElem?_eq_getElem (by omega)
            simp only [WRRQueue.popLoop, hqe, if_neg hce, FIFOQueue.pop,
              hsq, hwq]
            simp

/-- Helper: subtracting a reduced remainder is the same as subtracting
the original value, modulo the same divisor. -/
theorem emod_sub_emod_cancel (a b n : ℤ) : (a - b % n) % n = (a - b) % n := by
  conv_lhs => rw [Int.sub_emod]
  rw [Int.emod_emod_of_dvd _ dvd_rfl, ← Int.sub_emod]

/-- C8 helper (the skip rule): when the child under the cursor is empty
and the composite queue is not, `pop` behaves exactly as if the cursor
had already advanced to the next child with the popped counter reset: an
empty child is skipped without consuming any quota. -/
theorem wrr_skip_empty_child (t : ℚ) (s : WRRQueue) (child : FIFOQueue Packet)
    (hlw : s.queues.length = s.weights.length)
    (h0 : 0 ≤ s.currentQueueIndex)
    (hlt : s.currentQueueIndex < (s.queues.length : ℤ))
    (hqe : s.queues[s.currentQueueIndex.toNat]? = some child)
    (hce : child.empty = true)
    (hne : s.empty = false) :
    s.pop t = s.nextQueue.pop t := by
  have hlen0 : (0 : ℤ) < (s.queues.length : ℤ) := lt_of_le_of_lt h0 hlt
  obtain ⟨m, hm⟩ : ∃ m, s.queues.length = m + 1 :=
    ⟨s.queues.length - 1, by omega⟩
  have hnne : s.nextQueue.empty = false := hne
  -- locate a non-empty child
  obtain ⟨c, hcmem, hcne'⟩ := List.all_eq_false.mp hne
  have hcne : c.empty = false := by
    cases hcc : c.empty with
    | false => rfl
    | true => exact absurd hcc hcne'
  obtain ⟨i, hi, hci⟩ := List.getElem_of_mem hcmem
  have hii : i ≠ s.currentQueueIndex.toNat := by
    intro hii
    subst hii
    rw [List.getElem?_eq_getElem hi] at hqe
    rw [Option.some_inj.mp hqe] at hci
    rw [← hci] at hcne
    rw [hcne] at hce
    exact Bool.noConfusion hce
  -- the non-empty child is reached from the advanced cursor within m steps
  set len : ℤ := (s.queues.length : ℤ) with hlendef
  set nextIdx : ℤ := (s.currentQueueIndex - 1).emod len with hnidef
  have hn0 : 0 ≤ nextIdx := Int.emod_nonneg _ (by omega)
  have hnlt : nextIdx < len := Int.emod_lt_of_pos _ hlen0
  set jz : ℤ := (nextIdx - (i : ℤ)).emod len with hjzdef
  have hjz0 : 0 ≤ jz := Int.emod_nonneg _ (by omega)
  have hjzlt : jz < len := Int.emod_lt_of_pos _ hlen0
  have hback : (nextIdx - jz) % len = (i : ℤ) := by
    rw [hjzdef]
    show (nextIdx - (nextIdx - (i : ℤ)) % len) % len = _
    rw [emod_sub_emod_cancel]
    have : nextIdx - (nextIdx - (i : ℤ)) = (i : ℤ) := by ring
    rw [this]
    exact Int.emod_eq_of_lt (by omega) (by omega)
  have hnext_plus : (nextIdx + 1) % len = s.currentQueueIndex := by
    rw [hnidef]
    show ((s.currentQueueIndex - 1) % len + 1) % len = _
    rw [Int.emod_add_emod]
    have : s.currentQueueIndex - 1 + 1 = s.currentQueueIndex := by ring
    rw [this]
    exact Int.emod_eq_of_lt h0 hlt
  have hjm : jz.toNat < m := by
    rcases lt_or_eq_of_le (show jz ≤ (m : ℤ) by omega) with h | h
    · omega
    · exfalso
      apply hii
      have : (i : ℤ) = s.currentQueueIndex := by
        rw [← hback, h]
        have h1 : nextIdx - (m : ℤ) = nextIdx + 1 - len := by
          rw [hlendef]
          push_cast [hm]
          ring
        rw [h1, Int.emod_sub_cancel, hnext_plus]
      omega
  -- the advanced-cursor loop succeeds with fuel m
  have hsome := popLoop_isSome t m s.nextQueue hlw
    (Int.emod_nonneg _ (by omega)) (Int.emod_lt_of_pos _ hlen0)
    ⟨jz.toNat, hjm, c, ?_, hcne⟩
  rotate_left
  · have hx : ((s.nextQueue.currentQueueIndex - (jz.toNat : ℤ)).emod
        (s.nextQueue.queues.length : ℤ)).toNat = i := by
      show ((nextIdx - (jz.toNat : ℤ)).emod len).toNat = i
      rw [Int.toNat_of_nonneg hjz0]
      have : (nextIdx - jz).emod len = (i : ℤ) := hback
      rw [this]
      omega
    rw [show s.nextQueue.queues = s.queues from rfl] at hx ⊢
    rw [hx]
    rw [List.getElem?_eq_getElem hi, hci]
  obtain ⟨r, hr⟩ := Option.isSome_iff_exists.mp hsome
  have hr1 : WRRQueue.popLoop t (m + 1) s.nextQueue = some r :=
    popLoop_fuel_succ t m s.nextQueue r hr
  have hskip : WRRQueue.popLoop t (m + 1) s =
      WRRQueue.popLoop t m s.nextQueue := by
    conv_lhs => rw [WRRQueue.popLoop]
    simp [hqe, hce]
  have hm' : s.nextQueue.queues.length = m + 1 := hm
  simp only [WRRQueue.pop, hne, hnne, Bool.false_eq_true, if_false, hm, hm',
    hskip, hr, hr1]

/-- C8.  The WRR dispatch rule: (a) while the popped counter is short of
the cursor child's weight and that child holds enough packets, the pops
serve that child consecutively in stored order, and the cursor advances
(counter reset) exactly when the counter reaches the weight — up to
`weight[i]` consecutive packets are served from the current child before
advancing; (b) a child found empty when selected is skipped without
consuming any quota: pop behaves exactly as from the state whose cursor
has already advanced with the counter reset; (c) in particular, with
weights [2, 1] and both classes holding enough packets, the pop sequence
cycles through one packet of the weight-1 class and two of the weight-2
class, repeating. -/
theorem c8_wrr_weighted_cycle :
    (∀ (t : ℚ) (k : ℕ) (s : WRRQueue) (w limit : ℕ) (q : List Packet),
      s.weights[s.currentQueueIndex.toNat]? = some w →
      s.queues[s.currentQueueIndex.toNat]? = some ⟨limit, q⟩ →
      s.currentQueuePopped + k = w →
      1 ≤ k → k ≤ q.length →
      (wrrPopSeqAux t k s).1 = q.take k ∧
      (wrrPopSeqAux t k s).2 = { s with
        queues := s.queues.set s.currentQueueIndex.toNat ⟨limit, q.drop k⟩,
        currentQueueIndex :=
          (s.currentQueueIndex - 1).emod (s.queues.length : ℤ),
        currentQueuePopped := 0 }) ∧
    (∀ (t : ℚ) (s : WRRQueue) (child : FIFOQueue Packet),
      s.queues.length = s.weights.length →
      0 ≤ s.currentQueueIndex →
      s.currentQueueIndex < (s.queues.length : ℤ) →
      s.queues[s.currentQueueIndex.toNat]? = some child →
      child.empty = true →
      s.empty = false →
      s.pop t = s.nextQueue.pop t) ∧
    (∀ (n : ℕ) (ca cb : ℕ) (A B : List Packet) (t : ℚ),
      A.length = 2 * n → B.length = n →
      (wrrPopSeqAux t (3 * n) (WRRQueue.init [⟨ca, A⟩, ⟨cb, B⟩] [2, 1])).1 =
        cycleExpected n A B) := by
  refine ⟨wrr_serve_run, ?_, ?_⟩
  · intro t s child h1 h2 h3 h4 h5 h6
    exact wrr_skip_empty_child t s child h1 h2 h3 h4 h5 h6
  · intro n ca cb A B t hA hB
    have hinit : WRRQueue.init [⟨ca, A⟩, ⟨cb, B⟩] [2, 1] =
        (⟨[⟨ca, A⟩, ⟨cb, B⟩], [2, 1], 1, 0⟩ : WRRQueue) := rfl
    rw [hinit]
    exact wrr_cycle t ca cb n A B hA hB

/-- C8, witness: a freshly initialised WRR queue with children
`[p1, p2]` (weight 2) and `[p3]` (weight 1) pops `p3, p1, p2` in three
pops; a quota run of 2 serves `p1, p2` consecutively from child 0; and a
pop with the cursor on an empty child equals the pop after advancing the
cursor. -/
theorem c8_wrr_weighted_cycle_witness :
    ((wrrPopSeqAux 0 2
        (⟨[⟨5, [⟨10, 1, 1, Priority.LOW, none, none, false⟩,
                ⟨10, 2, 1, Priority.LOW, none, none, false⟩]⟩,
           ⟨5, [⟨10, 3, 1, Priority.MEDIUM, none, none, false⟩]⟩], [2, 1], 0, 0⟩ :
          WRRQueue)).1 =
      [⟨10, 1, 1, Priority.LOW, none, none, false⟩,
       ⟨10, 2, 1, Priority.LOW, none, none, false⟩]) ∧
    ((⟨[⟨5, [⟨10, 1, 1, Priority.LOW, none, none, false⟩]⟩, ⟨5, []⟩],
        [2, 1], 1, 0⟩ : WRRQueue).pop 0 =
      (⟨[⟨5, [⟨10, 1, 1, Priority.LOW, none, none, false⟩]⟩, ⟨5, []⟩],
        [2, 1], 1, 0⟩ : WRRQueue).nextQueue.pop 0) ∧
    ((wrrPopSeqAux 0 3
        (WRRQueue.init [⟨5, [⟨10, 1, 1, Priority.LOW, none, none, false⟩,
            ⟨10, 2, 1, Priority.LOW, none, none, false⟩]⟩,
          ⟨5, [⟨10, 3, 1, Priority.MEDIUM, none, none, false⟩]⟩] [2, 1])).1 =
      cycleExpected 1
        [⟨10, 1, 1, Priority.LOW, none, none, false⟩,
         ⟨10, 2, 1, Priority.LOW, none, none, false⟩]
        [⟨10, 3, 1, Priority.MEDIUM, none, none, false⟩]) := by
  refine ⟨?_, ?_, ?_⟩
  · exact (c8_wrr_weighted_cycle.1 0 2 _ 2 5
      [⟨10, 1, 1, Priority.LOW, none, none, false⟩,
       ⟨10, 2, 1, Priority.LOW, none, none, false⟩]
      (by decide) (by decide) (by decide) (by decide) (by decide)).1
  · exact c8_wrr_weighted_cycle.2.1 0 _ ⟨5, []⟩
      (by decide) (by decide) (by decide) (by decide) (by decide) (by decide)
  · exact c8_wrr_weighted_cycle.2.2 1 5 5 _ _ 0 (by decide) (by decide)

/-- Helper: `popMin` fails exactly on the empty event list (`heappop`
raises on an empty heap; the scheduler only pops under a non-emptiness
guard). -/
theorem popMin_eq_none {l : List Event} : popMin l = none ↔ l = [] := by
  cases l with
  | nil => simp [popMin]
  | cons e rest =>
      constructor
      · intro h
        exfalso
        simp only [popMin] at h
        cases hr : popMin rest with
        | none =>
            simp only [hr] at h
            exact Option.noConfusion h
        | some p =>
            cases p with
            | mk m r =>
                simp only [hr] at h
                split at h <;> exact Option.noConfusion h
      · intro h
        exact List.noConfusion h

/-- Helper: `popMin` removes exactly one occurrence of the returned
event. -/
theorem popMin_perm :
    ∀ {l : List Event} {e : Event} {r : List Event},
    popMin l = some (e, r) → List.Perm l (e :: r) := by
  intro l
  induction l with
  | nil => intro e r h; simp [popMin] at h
  | cons a rest ih =>
      intro e r h
      simp only [popMin] at h
      cases hr : popMin rest with
      | none =>
          simp only [hr] at h
          have h' := Option.some_inj.mp h
          rw [Prod.mk.injEq] at h'
          obtain ⟨rfl, rfl⟩ := h'
          have hrest : rest = [] := popMin_eq_none.mp hr
          subst hrest
          exact List.Perm.refl _
      | some p =>
          cases p with
          | mk m r' =>
              simp only [hr] at h
              split at h
              · have h' := Option.some_inj.mp h
                rw [Prod.mk.injEq] at h'
                obtain ⟨rfl, rfl⟩ := h'
                exact List.Perm.refl _
              · have h' := Option.some_inj.mp h
                rw [Prod.mk.injEq] at h'
                obtain ⟨rfl, rfl⟩ := h'
                exact ((ih hr).cons a).trans (List.Perm.swap m a r')

/-- Helper: `popMin` returns an event of minimal timestamp. -/
theorem popMin_min :
    ∀ {l : List Event} {e : Event} {r : List Event},
    popMin l = some (e, r) → ∀ f ∈ l, e.time ≤ f.time := by
  intro l
  induction l with
  | nil => intro e r h; simp [popMin] at h
  | cons a rest ih =>
      intro e r h f hf
      simp only [popMin] at h
      cases hr : popMin rest with
      | none =>
          simp only [hr] at h
          have h' := Option.some_inj.mp h
          rw [Prod.mk.injEq] at h'
          obtain ⟨rfl, rfl⟩ := h'
          have hrest : rest = [] := popMin_eq_none.mp hr
          subst hrest
          rcases List.mem_singleton.mp hf with rfl
          exact le_refl _
      | some p =>
          cases p with
          | mk m r' =>
              simp only [hr] at h
              split at h
              · rename_i hle
                have h' := Option.some_inj.mp h
                rw [Prod.mk.injEq] at h'
                obtain ⟨rfl, rfl⟩ := h'
                rcases List.mem_cons.mp hf with rfl | hf'
                · exact le_refl _
                · exact le_trans hle (ih hr f hf')
              · rename_i hle
                have h' := Option.some_inj.mp h
                rw [Prod.mk.injEq] at h'
                obtain ⟨rfl, rfl⟩ := h'
                rcases List.mem_cons.mp hf with rfl | hf'
                · exact le_of_not_le hle
                · exact ih hr f hf'

/-- Helper: the inner `while` loop of `_draw_events` never yields
anything, because the comparison `top().time == event` is the always
false Python cross-type equality. -/
theorem drawWhile_nil (n : ℕ) (e : Event) (evs : List Event) :
    drawWhile n e evs = ([], evs) := by
  cases n with
  | zero => rfl
  | succ n =>
      simp only [drawWhile]
      cases hp : popMin evs with
      | none => rfl
      | some p => cases p with | mk top rest => simp [timeEqPyEvent]

/-- Helper: the batch drawn when the earliest event is at or past the
horizon is empty (the event is discarded). -/
theorem drawEvents_ge {T : ℚ} {evs : List Event} {e : Event}
    {rest : List Event} (hp : popMin evs = some (e, rest))
    (hT : T ≤ e.time) : drawEvents T evs = ([], rest) := by
  simp [drawEvents, hp, hT]

/-- Helper: the batch drawn when the earliest event is before the
horizon is that single event. -/
theorem drawEvents_lt {T : ℚ} {evs : List Event} {e : Event}
    {rest : List Event} (hp : popMin evs = some (e, rest))
    (hT : ¬ T ≤ e.time) : drawEvents T evs = ([e], rest) := by
  simp [drawEvents, hp, hT, drawWhile_nil]

/-- Helper for C10: the fill loop cannot raise and establishes its
postcondition, provided the queue is non-empty on entry (the guard in
`_fill_processors`) and all processors below the starting index are
busy. -/
theorem fillFrom_some_post (Q : QueueModel) (t : ℚ) :
    ∀ (n i : ℕ) (s : Scheduler Q),
    Q.emptyQ s.queue = false →
    n + i = s.procs.length →
    (∀ j, j < i → ∀ p, s.procs[j]? = some p → p.is_busy = true) →
    ∃ s', fillFrom Q n i t s = some s' ∧
      (Q.emptyQ s'.queue = true ∨ ∀ p ∈ s'.procs, p.is_busy = true) := by
  intro n
  induction n with
  | zero =>
      intro i s hne hlen hbusy
      refine ⟨s, rfl, Or.inr ?_⟩
      intro p hp
      obtain ⟨j, hj, hjp⟩ := List.getElem_of_mem hp
      exact hbusy j (by omega) p (hjp ▸ List.getElem?_eq_getElem hj)
  | succ n ih =>
      intro i s hne hlen hbusy
      have hi : i < s.procs.length := by omega
      have hpe : s.procs[i]? = some s.procs[i] := List.getElem?_eq_getElem hi
      by_cases hb : s.procs[i].is_busy = true
      · have step : fillFrom Q (n + 1) i t s = fillFrom Q n (i + 1) t s := by
          simp only [fillFrom, hpe, hb, if_true]
        rw [step]
        refine ih (i + 1) s hne (by omega) ?_
        intro j hj p hp
        rcases Nat.lt_or_ge j i with h | h
        · exact hbusy j h p hp
        · have : j = i := by omega
          subst this
          rw [hpe] at hp
          rw [← Option.some_inj.mp hp]
          exact hb
      · obtain ⟨d, q', hpop, hcont⟩ := Q.pop_some s.queue t hne
        have step : fillFrom Q (n + 1) i t s =
            (let s' : Scheduler Q := { s with
              queue := q'
              pkts := Function.update s.pkts d
                { s.pkts d with processor_index := some i, start_time := some t }
              procs := s.procs.set i (s.procs[i].set_is_busy t)
              events := s.events ++
                [⟨t + (s.pkts d).process_time, EventType.DONE, d⟩] }
             if Q.emptyQ s'.queue then some s'
             else fillFrom Q n (i + 1) t s') := by
          simp only [fillFrom, hpe, hb, hpop, Bool.false_eq_true, if_false]
        rw [step]
        simp only []
        set s' : Scheduler Q := { s with
          queue := q'
          pkts := Function.update s.pkts d
            { s.pkts d with processor_index := some i, start_time := some t }
          procs := s.procs.set i (s.procs[i].set_is_busy t)
          events := s.events ++
            [⟨t + (s.pkts d).process_time, EventType.DONE, d⟩] } with hs'
        have hbusy' : ∀ j, j < i + 1 → ∀ p, s'.procs[j]? = some p →
            p.is_busy = true := by
          intro j hj p hp
          rcases Nat.lt_or_ge j i with h | h
          · rw [hs'] at hp
            simp only [List.getElem?_set_ne (by omega : i ≠ j)] at hp
            exact hbusy j h p hp
          · have : j = i := by omega
            subst this
            rw [hs'] at hp
            simp only [List.getElem?_set_self hi] at hp
            rw [← Option.some_inj.mp hp]
            rfl
        by_cases hq' : Q.emptyQ s'.queue = true
        · refine ⟨s', by rw [if_pos hq'], Or.inl hq'⟩
        · rw [if_neg hq']
          refine ih (i + 1) s' (by simpa using hq') ?_ hbusy'
          rw [hs']
          simp only [List.length_set]
          omega

/-- C10.  `_fill_processors` never dereferences a `None` pop result:
every `queue.pop` it performs happens on a non-empty queue (the entry
guard plus the re-check after each dispatch ensure this), so the call
always returns normally; and at every return, either the queue is empty
or every processor is busy. -/
theorem c10_fill_processors_safe (Q : QueueModel) (t : ℚ)
    (s : Scheduler Q) :
    ∃ s', fillProcessors Q t s = some s' ∧
      (Q.emptyQ s'.queue = true ∨ ∀ p ∈ s'.procs, p.is_busy = true) := by
  by_cases hne : Q.emptyQ s.queue = true
  · exact ⟨s, by simp [fillProcessors, hne], Or.inl hne⟩
  · have h := fillFrom_some_post Q t s.procs.length 0 s
      (by simpa using hne) (by omega) (by intro j hj; omega)
    obtain ⟨s', hfill, hpost⟩ := h
    exact ⟨s', by simpa [fillProcessors, hne] using hfill, hpost⟩

/-- C10, witness: filling one idle processor from a one-packet FIFO
queue returns normally and leaves the queue empty. -/
theorem c10_fill_processors_safe_witness :
    ∃ s', fillProcessors fifoModel 0
        { queue := ⟨2, [7]⟩
          events := []
          procs := [Processor.initial]
          host_rate := 1
          process_rate := 1
          simulation_time := 5
          priority_probs := []
          pkts := fun _ => defaultPacket
          all_packets := [] } = some s' ∧
      (fifoModel.emptyQ s'.queue = true ∨ ∀ p ∈ s'.procs, p.is_busy = true) :=
  c10_fill_processors_safe fifoModel 0 _

/-- Helper for C5: when every processor is busy, the fill loop changes
nothing. -/
theorem fillFrom_all_busy (Q : QueueModel) (t : ℚ) :
    ∀ (n i : ℕ) (s : Scheduler Q),
    (∀ p ∈ s.procs, p.is_busy = true) →
    fillFrom Q n i t s = some s := by
  intro n
  induction n with
  | zero => intro i s _; rfl
  | succ n ih =>
      intro i s hbusy
      cases hpe : s.procs[i]? with
      | none => simp [fillFrom, hpe]
      | some proc =>
          have hb : proc.is_busy = true :=
            hbusy proc (List.getElem?_mem hpe)
          simp only [fillFrom, hpe, hb, if_true]
          exact ih (i + 1) s hbusy

/-- Helper for C5: when the queue is empty or every processor is busy,
`_fill_processors` is a no-op. -/
theorem fillProcessors_noop (Q : QueueModel) (t : ℚ) (s : Scheduler Q)
    (h : Q.emptyQ s.queue = true ∨ ∀ p ∈ s.procs, p.is_busy = true) :
    fillProcessors Q t s = some s := by
  rcases h with h | h
  · simp [fillProcessors, h]
  · by_cases hne : Q.emptyQ s.queue = true
    · simp [fillProcessors, hne]
    · simp only [fillProcessors, hne, Bool.false_eq_true, if_false]
      exact fillFrom_all_busy Q t s.procs.length 0 s h

/-- C5.  Once the earliest remaining event is at or beyond the horizon,
the run performs no further processing: every event loop iteration from
a state in which the queue is empty or all processors are busy — the
condition `_fill_processors` establishes before any such pop — discards
events without applying them, so the run ends with the queue, the
processor pool and every packet exactly as they were: no admission, no
dispatch, no processor release, and packets left in the queue are never
processed further. -/
theorem c5_beyond_horizon_no_further_processing (Q : QueueModel) :
    ∀ (fuel : ℕ) (t : ℚ) (s : Scheduler Q),
    (Q.emptyQ s.queue = true ∨ ∀ p ∈ s.procs, p.is_busy = true) →
    (∀ e ∈ s.events, s.simulation_time ≤ e.time) →
    ∃ t' s', runLoop Q fuel t s = some (t', s') ∧ t' = t ∧
      s'.queue = s.queue ∧ s'.procs = s.procs ∧ s'.pkts = s.pkts := by
  intro fuel
  induction fuel with
  | zero => intro t s _ _; exact ⟨t, s, rfl, rfl, rfl, rfl, rfl⟩
  | succ fuel ih =>
      intro t s hQP hT
      by_cases hg : t < s.simulation_time ∧ s.events ≠ []
      · obtain ⟨e, rest, hp⟩ : ∃ e rest, popMin s.events = some (e, rest) := by
          cases hpm : popMin s.events with
          | none => exact absurd (popMin_eq_none.mp hpm) hg.2
          | some p =>
              obtain ⟨e0, r0⟩ := p
              exact ⟨e0, r0, rfl⟩
        have hmem : e ∈ s.events :=
          (popMin_perm hp).mem_iff.mpr (List.mem_cons_self _ _)
        have hge : s.simulation_time ≤ e.time := hT e hmem
        have hdraw := drawEvents_ge hp hge
        have hQP₁ : (Q.emptyQ ({ s with events := rest } : Scheduler Q).queue
            = true ∨
            ∀ p ∈ ({ s with events := rest } : Scheduler Q).procs,
              p.is_busy = true) := hQP
        have hfill : fillProcessors Q t ({ s with events := rest } :
            Scheduler Q) = some { s with events := rest } :=
          fillProcessors_noop Q t _ hQP₁
        have hT₁ : ∀ e' ∈ ({ s with events := rest } :
            Scheduler Q).events,
            ({ s with events := rest } : Scheduler Q).simulation_time ≤
              e'.time := by
          intro e' he'
          exact hT e'
            ((popMin_perm hp).mem_iff.mpr (List.mem_cons_of_mem _ he'))
        obtain ⟨t', s', hrun, hteq, hq, hpr, hpk⟩ :=
          ih t { s with events := rest } hQP₁ hT₁
        refine ⟨t', s', ?_, hteq, hq, hpr, hpk⟩
        simp only [runLoop, if_pos hg, hdraw, applyBatch, hfill]
        exact hrun
      · exact ⟨t, s, by simp [runLoop, hg], rfl, rfl, rfl, rfl⟩

/-- C5, witness: with horizon 5, an empty FIFO queue, one idle
processor and a single pending event at time 6, the loop drains the
event set while leaving queue, processors and packets untouched. -/
theorem c5_beyond_horizon_witness :
    ∃ t' s', runLoop fifoModel 3 0
        { queue := ⟨2, []⟩
          events := [⟨6, EventType.SPAWN, 0⟩]
          procs := [Processor.initial]
          host_rate := 1
          process_rate := 1
          simulation_time := 5
          priority_probs := []
          pkts := fun _ => defaultPacket
          all_packets := [] } = some (t', s') ∧ t' = 0 ∧
      s'.queue = ⟨2, []⟩ ∧ s'.procs = [Processor.initial] ∧
      s'.pkts = fun _ => defaultPacket :=
  c5_beyond_horizon_no_further_processing fifoModel 3 0 _
    (Or.inl (by decide))
    (by intro e he; rcases List.mem_singleton.mp he with rfl; norm_num)


/-- Helper for C9: popping the earliest event preserves the invariant on
the remaining state, and the popped event satisfies the popped-event
contract there. -/
theorem inv_popMin (Q : QueueModel) (s : Scheduler Q) (e : Event)
    (rest : List Event) (hInv : Inv Q s)
    (hp : popMin s.events = some (e, rest)) :
    Inv Q { s with events := rest } ∧
      EventOk Q { s with events := rest } e := by
  have hperm : List.Perm s.events (e :: rest) := popMin_perm hp
  have hmem : ∀ f ∈ rest, f ∈ s.events := fun f hf =>
    hperm.mem_iff.mpr (List.mem_cons_of_mem _ hf)
  have heme : e ∈ s.events := hperm.mem_iff.mpr (List.mem_cons_self _ _)
  have hsp : List.Perm (spawnPids Q s)
      (((e :: rest).filter (fun f => f.event_type == EventType.SPAWN)).map
        Event.pid) :=
    (hperm.filter _).map _
  have hdp : List.Perm (donePIdx Q s)
      (((e :: rest).filter (fun f => f.event_type == EventType.DONE)).map
        (fun f => (s.pkts f.pid).processor_index)) :=
    (hperm.filter _).map _
  have hspawnN : (((e :: rest).filter
      (fun f => f.event_type == EventType.SPAWN)).map Event.pid).Nodup :=
    hsp.nodup_iff.mp hInv.spawnNodup
  have hdoneN : (((e :: rest).filter
      (fun f => f.event_type == EventType.DONE)).map
        (fun f => (s.pkts f.pid).processor_index)).Nodup :=
    hdp.nodup_iff.mp hInv.doneNodup
  constructor
  · refine ⟨hInv.excl, hInv.coupled, hInv.qIds, hInv.qNodup, ?_, ?_, ?_, ?_⟩
    · intro f hf hfs
      exact hInv.spawnFresh f (hmem f hf) hfs
    · show ((rest.filter (fun f => f.event_type == EventType.SPAWN)).map
        Event.pid).Nodup
      rcases hes : (e.event_type == EventType.SPAWN) with hb | hb
      · simpa [List.filter_cons, hes] using hspawnN
      · have h2 := hspawnN
        rw [List.filter_cons, hes] at h2
        simp only [if_true] at h2
        exact (List.nodup_cons.mp (by simpa using h2)).2
    · intro f hf hfd
      exact hInv.doneOk f (hmem f hf) hfd
    · show ((rest.filter (fun f => f.event_type == EventType.DONE)).map
        (fun f => (s.pkts f.pid).processor_index)).Nodup
      rcases hed : (e.event_type == EventType.DONE) with hb | hb
      · simpa [List.filter_cons, hed] using hdoneN
      · have h2 := hdoneN
        rw [List.filter_cons, hed] at h2
        simp only [if_true] at h2
        exact (List.nodup_cons.mp (by simpa using h2)).2
  · constructor
    · intro hes
      obtain ⟨h1, h2, h3⟩ := hInv.spawnFresh e heme hes
      refine ⟨h1, h2, h3, ?_⟩
      have h4 := hspawnN
      rw [List.filter_cons] at h4
      simp only [hes, beq_self_eq_true, if_true, List.map_cons] at h4
      exact (List.nodup_cons.mp h4).1
    · intro hed
      obtain ⟨i, p, h1, h2, h3, h4, h5⟩ := hInv.doneOk e heme hed
      refine ⟨i, p, h1, h2, h3, h4, h5, ?_⟩
      have h6 := hdoneN
      rw [List.filter_cons] at h6
      simp only [hed, beq_self_eq_true, if_true, List.map_cons] at h6
      rw [← h1]
      exact (List.nodup_cons.mp h6).1

/-- Helper for C9: a packet identifier of a pending SPAWN event belongs
to the SPAWN identifier list. -/
theorem mem_spawnPids (Q : QueueModel) (s : Scheduler Q) (f : Event)
    (hf : f ∈ s.events) (hfs : f.event_type = EventType.SPAWN) :
    f.pid ∈ spawnPids Q s :=
  List.mem_map.mpr ⟨f, List.mem_filter.mpr ⟨hf, by simp [hfs]⟩, rfl⟩

/-- Helper for C9: the recorded processor index of a pending DONE
event's packet belongs to the DONE processor-index list. -/
theorem mem_donePIdx (Q : QueueModel) (s : Scheduler Q) (f : Event)
    (hf : f ∈ s.events) (hfd : f.event_type = EventType.DONE) :
    (s.pkts f.pid).processor_index ∈ donePIdx Q s :=
  List.mem_map.mpr ⟨f, List.mem_filter.mpr ⟨hf, by simp [hfd]⟩, rfl⟩

/-- Helper for C9: applying a popped event cannot raise, and preserves
the invariant. -/
theorem applyEvent_inv (Q : QueueModel) (e : Event) (s : Scheduler Q)
    (hInv : Inv Q s) (hOk : EventOk Q s e) :
    ∃ s', applyEvent Q e s = some s' ∧ Inv Q s' := by
  cases het : e.event_type with
  | SPAWN =>
      obtain ⟨hdr, hst, hnq, hnsp⟩ := hOk.1 het
      cases hr2 : (Q.addPacket s.queue e.pid
          (s.pkts e.pid).priority e.time).2 with
      | true =>
          have hcont := Q.add_true s.queue e.pid
            (s.pkts e.pid).priority e.time hr2
          refine ⟨{ s with queue :=
            (Q.addPacket s.queue e.pid (s.pkts e.pid).priority e.time).1 },
            ?_, ?_⟩
          · simp only [applyEvent, het, hr2, if_true]
          · refine ⟨hInv.excl, hInv.coupled, ?_, ?_, ?_, hInv.spawnNodup,
              hInv.doneOk, hInv.doneNodup⟩
            · intro id hid
              rw [hcont] at hid
              rcases Multiset.mem_cons.mp hid with rfl | hid'
              · exact ⟨hdr, hst⟩
              · exact hInv.qIds id hid'
            · rw [hcont]
              exact Multiset.nodup_cons.mpr ⟨hnq, hInv.qNodup⟩
            · intro f hf hfs
              obtain ⟨h1, h2, h3⟩ := hInv.spawnFresh f hf hfs
              refine ⟨h1, h2, ?_⟩
              rw [hcont]
              intro hmem
              rcases Multiset.mem_cons.mp hmem with heq | hmem'
              · exact hnsp (heq ▸ mem_spawnPids Q s f hf hfs)
              · exact h3 hmem'
      | false =>
          have hcont := Q.add_false s.queue e.pid
            (s.pkts e.pid).priority e.time hr2
          have hpi : ∀ id, ((Function.update s.pkts e.pid
              { s.pkts e.pid with dropped := true }) id).processor_index =
              (s.pkts id).processor_index := by
            intro id
            by_cases hide : id = e.pid
            · subst hide
              rw [Function.update_same]
            · rw [Function.update_noteq hide]
          have hstf : ∀ id, ((Function.update s.pkts e.pid
              { s.pkts e.pid with dropped := true }) id).start_time =
              (s.pkts id).start_time := by
            intro id
            by_cases hide : id = e.pid
            · subst hide
              rw [Function.update_same]
            · rw [Function.update_noteq hide]
          refine ⟨{ s with
            queue :=
              (Q.addPacket s.queue e.pid (s.pkts e.pid).priority e.time).1
            pkts := Function.update s.pkts e.pid
              { s.pkts e.pid with dropped := true } }, ?_, ?_⟩
          · simp only [applyEvent, het, hr2, Bool.false_eq_true, if_false]
          · refine ⟨?_, ?_, ?_, ?_, ?_, hInv.spawnNodup, ?_, ?_⟩
            · intro id
              by_cases hide : id = e.pid
              · subst hide
                simp only [Function.update_same]
                intro hcon
                exact hcon.2 hst
              · simp only [Function.update_noteq hide]
                exact hInv.excl id
            · intro id h
              rw [hstf] at h
              rw [hpi]
              exact hInv.coupled id h
            · intro id hid
              rw [hcont] at hid
              have hne : id ≠ e.pid := fun heq => hnq (heq ▸ hid)
              simp only [Function.update_noteq hne]
              exact hInv.qIds id hid
            · rw [hcont]
              exact hInv.qNodup
            · intro f hf hfs
              obtain ⟨h1, h2, h3⟩ := hInv.spawnFresh f hf hfs
              have hne : f.pid ≠ e.pid := fun heq =>
                hnsp (heq ▸ mem_spawnPids Q s f hf hfs)
              simp only [Function.update_noteq hne]
              rw [hcont]
              exact ⟨h1, h2, h3⟩
            · intro f hf hfd
              obtain ⟨i, p, h1, h2, h3, h4, h5⟩ := hInv.doneOk f hf hfd
              exact ⟨i, p, by rw [hpi]; exact h1, h2, h3, h4,
                by rw [hstf]; exact h5⟩
            · show ((s.events.filter
                (fun f => f.event_type == EventType.DONE)).map
                  (fun f => ((Function.update s.pkts e.pid
                    { s.pkts e.pid with dropped := true })
                      f.pid).processor_index)).Nodup
              rw [List.map_congr_left (fun f _ => hpi f.pid)]
              exact hInv.doneNodup
  | DONE =>
      obtain ⟨i, p, hpi, hpp, hbusy, hstt, hstarted, hnotin⟩ := hOk.2 het
      obtain ⟨st, hstv⟩ := Option.isSome_iff_exists.mp hstt
      have hilen : i < s.procs.length := lt_of_getElem?_some hpp
      refine ⟨{ s with
        procs := s.procs.set i
          (Processor.mk false none (p.account + (e.time - st))) }, ?_, ?_⟩
      · simp only [applyEvent, het, hpi, hpp, Processor.reset_is_busy, hstv]
      · refine ⟨hInv.excl, hInv.coupled, hInv.qIds, hInv.qNodup,
          hInv.spawnFresh, hInv.spawnNodup, ?_, hInv.doneNodup⟩
        intro f hf hfd
        obtain ⟨i', p', h1', h2', h3', h4', h5'⟩ := hInv.doneOk f hf hfd
        have hii : i' ≠ i := by
          intro heq
          subst heq
          apply hnotin
          rw [← h1']
          exact mem_donePIdx Q s f hf hfd
        refine ⟨i', p', h1', ?_, h3', h4', h5'⟩
        rw [List.getElem?_set_ne (fun h => hii h.symm)]
        exact h2'

/-- Helper for C9: the fill loop cannot raise when the queue is
non-empty on entry, and it preserves the invariant (each dispatch moves
a fresh queued packet to dispatched state, marks an idle processor busy
and schedules a DONE event for a processor no pending DONE event
targets). -/
theorem fillFrom_inv (Q : QueueModel) (t : ℚ) :
    ∀ (n i : ℕ) (s : Scheduler Q), Inv Q s → Q.emptyQ s.queue = false →
    ∃ s', fillFrom Q n i t s = some s' ∧ Inv Q s' := by
  intro n
  induction n with
  | zero => intro i s hInv _; exact ⟨s, rfl, hInv⟩
  | succ n ih =>
      intro i s hInv hne
      cases hpe : s.procs[i]? with
      | none => exact ⟨s, by simp [fillFrom, hpe], hInv⟩
      | some proc =>
          by_cases hb : proc.is_busy = true
          · have step : fillFrom Q (n + 1) i t s = fillFrom Q n (i + 1) t s := by
              simp only [fillFrom, hpe, hb, if_true]
            rw [step]
            exact ih (i + 1) s hInv hne
          · have hilen : i < s.procs.length := lt_of_getElem?_some hpe
            obtain ⟨d, q', hpop, hcont⟩ := Q.pop_some s.queue t hne
            have hdmem : d ∈ Q.contents s.queue :=
              hcont ▸ Multiset.mem_cons_self d _
            obtain ⟨hddr, hdst⟩ := hInv.qIds d hdmem
            have hdpi : (s.pkts d).processor_index = none :=
              hInv.coupled d hdst
            have hdnotin : d ∉ Q.contents q' :=
              (Multiset.nodup_cons.mp (hcont ▸ hInv.qNodup)).1
            have hq'sub : ∀ id ∈ Q.contents q', id ∈ Q.contents s.queue :=
              fun id hid => hcont ▸ Multiset.mem_cons_of_mem hid
            have step : fillFrom Q (n + 1) i t s =
                (let s' : Scheduler Q := { s with
                  queue := q'
                  pkts := Function.update s.pkts d
                    { s.pkts d with
                      processor_index := some i, start_time := some t }
                  procs := s.procs.set i (proc.set_is_busy t)
                  events := s.events ++
                    [⟨t + (s.pkts d).process_time, EventType.DONE, d⟩] }
                 if Q.emptyQ s'.queue then some s'
                 else fillFrom Q n (i + 1) t s') := by
              simp only [fillFrom, hpe, hb, hpop, Bool.false_eq_true, if_false]
            rw [step]
            simp only []
            set s₁ : Scheduler Q := { s with
              queue := q'
              pkts := Function.update s.pkts d
                { s.pkts d with
                  processor_index := some i, start_time := some t }
              procs := s.procs.set i (proc.set_is_busy t)
              events := s.events ++
                [⟨t + (s.pkts d).process_time, EventType.DONE, d⟩] } with hs₁
            have hupd_ne : ∀ id, id ≠ d →
                s₁.pkts id = s.pkts id := by
              intro id hid
              rw [hs₁]
              exact Function.update_noteq hid _ _
            have hupd_d : s₁.pkts d =
                { s.pkts d with
                  processor_index := some i, start_time := some t } := by
              rw [hs₁]
              exact Function.update_same _ _ _
            have hInv₁ : Inv Q s₁ := by
              refine ⟨?_, ?_, ?_, ?_, ?_, ?_, ?_, ?_⟩
              · intro id
                by_cases hid : id = d
                · rw [hid, hupd_d]
                  intro hcon
                  have hc1 : (s.pkts d).dropped = true := hcon.1
                  rw [hddr] at hc1
                  exact Bool.noConfusion hc1
                · rw [hupd_ne id hid]
                  exact hInv.excl id
              · intro id h
                by_cases hid : id = d
                · subst hid
                  rw [hupd_d] at h
                  exact Option.noConfusion h
                · rw [hupd_ne id hid] at h ⊢
                  exact hInv.coupled id h
              · intro id hid
                have hidd : id ≠ d := fun heq => hdnotin (heq ▸ hid)
                rw [hupd_ne id hidd]
                exact hInv.qIds id (hq'sub id hid)
              · exact (Multiset.nodup_cons.mp (hcont ▸ hInv.qNodup)).2
              · intro f hf hfs
                rw [hs₁] at hf
                simp only [List.mem_append, List.mem_singleton] at hf
                rcases hf with hf | rfl
                · obtain ⟨h1, h2, h3⟩ := hInv.spawnFresh f hf hfs
                  have hfd : f.pid ≠ d := fun heq => h3 (heq ▸ hdmem)
                  rw [hupd_ne f.pid hfd]
                  refine ⟨h1, h2, ?_⟩
                  intro hmem
                  exact h3 (hq'sub f.pid hmem)
                · exact absurd hfs (by simp)
              · show ((s₁.events.filter
                  (fun f => f.event_type == EventType.SPAWN)).map
                    Event.pid).Nodup
                rw [hs₁]
                simp only [List.filter_append]
                rw [show List.filter (fun f => f.event_type == EventType.SPAWN)
                  [(⟨t + (s.pkts d).process_time, EventType.DONE, d⟩ : Event)]
                    = [] from rfl]
                rw [List.append_nil]
                exact hInv.spawnNodup
              · intro f hf hfd
                rw [hs₁] at hf
                simp only [List.mem_append, List.mem_singleton] at hf
                rcases hf with hf | rfl
                · obtain ⟨i', p', h1', h2', h3', h4', h5'⟩ :=
                    hInv.doneOk f hf hfd
                  have hfpd : f.pid ≠ d := fun heq => h5' (heq ▸ hdst)
                  have hii : i' ≠ i := by
                    intro heq
                    subst heq
                    rw [hpe] at h2'
                    rw [← Option.some_inj.mp h2'] at h3'
                    exact hb h3'
                  rw [hupd_ne f.pid hfpd]
                  refine ⟨i', p', h1', ?_, h3', h4', h5'⟩
                  rw [hs₁]
                  simp only []
                  rw [List.getElem?_set_ne (fun h => hii h.symm)]
                  exact h2'
                · rw [hupd_d]
                  refine ⟨i, proc.set_is_busy t, rfl, ?_, rfl, rfl, ?_⟩
                  · rw [hs₁]
                    simp only []
                    exact List.getElem?_set_self hilen
                  · exact fun h => Option.noConfusion h
              · show ((s₁.events.filter
                  (fun f => f.event_type == EventType.DONE)).map
                    (fun f => (s₁.pkts f.pid).processor_index)).Nodup
                rw [hs₁]
                simp only [List.filter_append]
                rw [show List.filter (fun f => f.event_type == EventType.DONE)
                  [(⟨t + (s.pkts d).process_time, EventType.DONE, d⟩ : Event)]
                    = [⟨t + (s.pkts d).process_time, EventType.DONE, d⟩]
                    from rfl]
                rw [List.map_append]
                have hmain : (List.filter
                    (fun f => f.event_type == EventType.DONE) s.events).map
                    (fun f => ((Function.update s.pkts d
                      { s.pkts d with
                        processor_index := some i, start_time := some t })
                          f.pid).processor_index) =
                    donePIdx Q s := by
                  apply List.map_congr_left
                  intro f hfin
                  obtain ⟨hfe, hfb⟩ := List.mem_filter.mp hfin
                  have hfd : f.event_type = EventType.DONE := by
                    simpa using hfb
                  obtain ⟨i', p', h1', h2', h3', h4', h5'⟩ :=
                    hInv.doneOk f hfe hfd
                  have hfpd : f.pid ≠ d := fun heq => h5' (heq ▸ hdst)
                  rw [Function.update_noteq hfpd]
                rw [List.map_singleton]
                rw [show ((Function.update s.pkts d
                  { s.pkts d with
                    processor_index := some i, start_time := some t })
                      d).processor_index = some i from
                  by rw [Function.update_same]]
                rw [hmain]
                rw [List.nodup_append]
                refine ⟨hInv.doneNodup, List.nodup_singleton _, ?_⟩
                intro a ha hb'
                rcases List.mem_singleton.mp hb' with rfl
                obtain ⟨f, hfin, hfv⟩ := List.mem_map.mp ha
                obtain ⟨hfe, hfb⟩ := List.mem_filter.mp hfin
                have hfd : f.event_type = EventType.DONE := by simpa using hfb
                obtain ⟨i', p', h1', h2', h3', h4', h5'⟩ :=
                  hInv.doneOk f hfe hfd
                rw [h1'] at hfv
                have : i' = i := Option.some_inj.mp hfv
                subst this
                rw [hpe] at h2'
                rw [← Option.some_inj.mp h2'] at h3'
                exact hb h3'
            by_cases hq' : Q.emptyQ s₁.queue = true
            · exact ⟨s₁, by rw [if_pos hq'], hInv₁⟩
            · rw [if_neg hq']
              exact ih (i + 1) s₁ hInv₁ (by simpa using hq')

/-- Helper for C9: `_fill_processors` cannot raise and preserves the
invariant. -/
theorem fillProcessors_inv (Q : QueueModel) (t : ℚ) (s : Scheduler Q)
    (hInv : Inv Q s) :
    ∃ s', fillProcessors Q t s = some s' ∧ Inv Q s' := by
  by_cases hne : Q.emptyQ s.queue = true
  · exact ⟨s, by simp [fillProcessors, hne], hInv⟩
  · obtain ⟨s', hfill, hInv'⟩ := fillFrom_inv Q t s.procs.length 0 s hInv
      (by simpa using hne)
    exact ⟨s', by simpa [fillProcessors, hne] using hfill, hInv'⟩

/-- Helper for C9: the event loop cannot raise from an invariant state,
and every state it reaches (also when the fuel runs out mid-run)
satisfies the invariant. -/
theorem runLoop_inv (Q : QueueModel) :
    ∀ (fuel : ℕ) (t : ℚ) (s : Scheduler Q), Inv Q s →
    ∃ t' s', runLoop Q fuel t s = some (t', s') ∧ Inv Q s' := by
  intro fuel
  induction fuel with
  | zero => intro t s hInv; exact ⟨t, s, rfl, hInv⟩
  | succ fuel ih =>
      intro t s hInv
      by_cases hg : t < s.simulation_time ∧ s.events ≠ []
      · obtain ⟨e, rest, hp⟩ : ∃ e rest, popMin s.events = some (e, rest) := by
          cases hpm : popMin s.events with
          | none => exact absurd (popMin_eq_none.mp hpm) hg.2
          | some p =>
              obtain ⟨e0, r0⟩ := p
              exact ⟨e0, r0, rfl⟩
        obtain ⟨hInv₁, hOk⟩ := inv_popMin Q s e rest hInv hp
        by_cases hTe : s.simulation_time ≤ e.time
        · have hdraw := drawEvents_ge hp hTe
          obtain ⟨s₃, hfill, hInv₃⟩ :=
            fillProcessors_inv Q t { s with events := rest } hInv₁
          obtain ⟨t', s', hrun, hI⟩ := ih t s₃ hInv₃
          refine ⟨t', s', ?_, hI⟩
          simp only [runLoop, if_pos hg, hdraw, applyBatch, hfill]
          exact hrun
        · have hdraw := drawEvents_lt hp hTe
          obtain ⟨s₂, happ, hInv₂⟩ :=
            applyEvent_inv Q e { s with events := rest } hInv₁ hOk
          obtain ⟨s₃, hfill, hInv₃⟩ := fillProcessors_inv Q e.time s₂ hInv₂
          obtain ⟨t', s', hrun, hI⟩ := ih e.time s₃ hInv₃
          refine ⟨t', s', ?_, hI⟩
          simp only [runLoop, if_pos hg, hdraw, applyBatch, happ, hfill]
          exact hrun
      · exact ⟨t, s, by simp [runLoop, hg], hInv⟩

/-- Helper for C9: the generated arrival events are all SPAWN events
with identifiers counting up from the given base, their identifiers are
pairwise distinct, and every generated packet starts undispatched and
undropped. -/
theorem createPackets_ok (T : ℚ) :
    ∀ (draws : List (ℚ × Priority × ℚ)) (cur : ℚ) (n : ℕ),
    (∀ e ∈ (createPackets T cur n draws).1,
      e.event_type = EventType.SPAWN ∧ n ≤ e.pid) ∧
    ((createPackets T cur n draws).1.map Event.pid).Nodup ∧
    (∀ p ∈ (createPackets T cur n draws).2,
      p.processor_index = none ∧ p.start_time = none ∧ p.dropped = false) := by
  intro draws
  induction draws with
  | nil =>
      intro cur n
      exact ⟨by intro e he; simp [createPackets] at he,
        by simp [createPackets],
        by intro p hp; simp [createPackets] at hp⟩
  | cons hd rest ih =>
      intro cur n
      obtain ⟨iv, pr, pt⟩ := hd
      by_cases hc : cur + iv < T
      · have hstep : createPackets T cur n ((iv, pr, pt) :: rest) =
            (⟨cur + iv, EventType.SPAWN, n⟩ ::
              (createPackets T (cur + iv) (n + 1) rest).1,
             ⟨T, cur + iv, pt, pr, none, none, false⟩ ::
              (createPackets T (cur + iv) (n + 1) rest).2) := by
          simp [createPackets, hc]
        obtain ⟨ih1, ih2, ih3⟩ := ih (cur + iv) (n + 1)
        refine ⟨?_, ?_, ?_⟩
        · intro e he
          rw [hstep] at he
          rcases List.mem_cons.mp he with rfl | he'
          · exact ⟨rfl, le_refl n⟩
          · obtain ⟨h1, h2⟩ := ih1 e he'
            exact ⟨h1, by omega⟩
        · rw [hstep]
          simp only [List.map_cons]
          refine List.nodup_cons.mpr ⟨?_, ih2⟩
          intro hmem
          obtain ⟨e, he, hev⟩ := List.mem_map.mp hmem
          have := (ih1 e he).2
          omega
        · intro p hp
          rw [hstep] at hp
          rcases List.mem_cons.mp hp with rfl | hp'
          · exact ⟨rfl, rfl, rfl⟩
          · exact ih3 p hp'
      · have hstep : createPackets T cur n ((iv, pr, pt) :: rest) =
            ([], []) := by
          simp [createPackets, hc]
        rw [hstep]
        exact ⟨by intro e he; simp at he, by simp,
          by intro p hp; simp at hp⟩

/-- Helper for C9: the state reached right after `_create_packets`,
started with an empty queue, satisfies the invariant. -/
theorem initState_inv (Q : QueueModel) (q0 : Q.σ) (x y T : ℚ)
    (processors : ℤ) (probs : List ℚ) (draws : List (ℚ × Priority × ℚ))
    (hq0 : Q.contents q0 = 0) :
    Inv Q (initState Q q0 x y T processors probs draws) := by
  obtain ⟨h1, h2, h3⟩ := createPackets_ok T draws 0 0
  have hfresh : ∀ id,
      ((initState Q q0 x y T processors probs draws).pkts id).processor_index
        = none ∧
      ((initState Q q0 x y T processors probs draws).pkts id).start_time
        = none ∧
      ((initState Q q0 x y T processors probs draws).pkts id).dropped
        = false := by
    intro id
    show ((createPackets T 0 0 draws).2.getD id defaultPacket).processor_index
        = none ∧
      ((createPackets T 0 0 draws).2.getD id defaultPacket).start_time
        = none ∧
      ((createPackets T 0 0 draws).2.getD id defaultPacket).dropped = false
    by_cases hlt : id < (createPackets T 0 0 draws).2.length
    · rw [List.getD_eq_getElem _ _ hlt]
      exact h3 _ (List.getElem_mem hlt)
    · rw [List.getD_eq_default _ _ (by omega)]
      exact ⟨rfl, rfl, rfl⟩
  have hevents : (initState Q q0 x y T processors probs draws).events =
      (createPackets T 0 0 draws).1 := rfl
  have hqueue : Q.contents
      (initState Q q0 x y T processors probs draws).queue = 0 := hq0
  refine ⟨?_, ?_, ?_, ?_, ?_, ?_, ?_, ?_⟩
  · intro id
    intro hcon
    rw [(hfresh id).2.2] at hcon
    exact Bool.noConfusion hcon.1
  · intro id _
    exact (hfresh id).1
  · intro id hid
    rw [hqueue] at hid
    exact absurd hid (Multiset.not_mem_zero id)
  · rw [hqueue]
    exact Multiset.nodup_zero
  · intro e he _
    rw [hevents] at he
    refine ⟨(hfresh e.pid).2.2, (hfresh e.pid).2.1, ?_⟩
    rw [hqueue]
    exact Multiset.not_mem_zero _
  · show (((initState Q q0 x y T processors probs draws).events.filter
      (fun e => e.event_type == EventType.SPAWN)).map Event.pid).Nodup
    rw [hevents]
    rw [List.filter_eq_self.mpr ?_]
    · exact h2
    · intro e he
      simp [(h1 e he).1]
  · intro e he hed
    rw [hevents] at he
    rw [(h1 e he).1] at hed
    exact absurd hed (by simp)
  · show (((initState Q q0 x y T processors probs draws).events.filter
      (fun e => e.event_type == EventType.DONE)).map
        (fun e => ((initState Q q0 x y T processors probs draws).pkts
          e.pid).processor_index)).Nodup
    rw [hevents]
    rw [List.filter_eq_nil_iff.mpr ?_]
    · exact List.nodup_nil
    · intro e he
      simp [(h1 e he).1]

/-- C9.  Throughout a scheduler run no packet is ever both dropped and
dispatched: the state right after arrival generation (with an initially
empty queue) satisfies the invariant, every iteration of the event loop
preserves it without raising, and the invariant entails that a packet
with the dropped flag set has neither a start time nor a processor
index, while a dispatched packet (one with a start time or a processor
index) never has its dropped flag set. -/
theorem c9_dropped_dispatched_exclusive :
    (∀ (Q : QueueModel) (q0 : Q.σ) (x y T : ℚ) (processors : ℤ)
      (probs : List ℚ) (draws : List (ℚ × Priority × ℚ)),
      Q.contents q0 = 0 →
      Inv Q (initState Q q0 x y T processors probs draws)) ∧
    (∀ (Q : QueueModel) (fuel : ℕ) (t : ℚ) (s : Scheduler Q), Inv Q s →
      ∃ t' s', runLoop Q fuel t s = some (t', s') ∧ Inv Q s') ∧
    (∀ (Q : QueueModel) (s : Scheduler Q), Inv Q s → ∀ id,
      ¬ ((s.pkts id).dropped = true ∧
        ((s.pkts id).start_time ≠ none ∨
          (s.pkts id).processor_index ≠ none))) := by
  refine ⟨initState_inv, runLoop_inv, ?_⟩
  intro Q s hInv id hcon
  rcases hcon.2 with h | h
  · exact hInv.excl id ⟨hcon.1, h⟩
  · cases hst : (s.pkts id).start_time with
    | some v => exact hInv.excl id ⟨hcon.1, by rw [hst]; simp⟩
    | none => exact h (hInv.coupled id hst)

/-- C9, witness: a single-arrival scenario on a FIFO queue of capacity 2
(one draw at interval 1, horizon 5): the post-generation state satisfies
the invariant and two loop iterations run without raising, preserving
it. -/
theorem c9_dropped_dispatched_exclusive_witness :
    Inv fifoModel (initState fifoModel ⟨2, []⟩ 1 1 5 1 []
      [(1, Priority.HIGH, 1)]) ∧
    (∃ t' s', runLoop fifoModel 2 0 (initState fifoModel ⟨2, []⟩ 1 1 5 1 []
      [(1, Priority.HIGH, 1)]) = some (t', s') ∧ Inv fifoModel s') := by
  have hinit := c9_dropped_dispatched_exclusive.1 fifoModel ⟨2, []⟩ 1 1 5 1 []
    [(1, Priority.HIGH, 1)] (by decide)
  exact ⟨hinit, c9_dropped_dispatched_exclusive.2.1 fifoModel 2 0 _ hinit⟩

